/-
Verification of the ubiquityl port-forward reconciliation service.

Shallow embedding of the TypeScript sources:
  * `src/udmClient.ts`   — protocol (de)serialization, payload construction,
    request retry-on-auth-failure, single-flight login coordination;
  * `syncService.ts`     — rule naming/parsing, drift detection, the
    reconciliation cycle (extract / reconcile / apply).

JavaScript numbers that hold allocation ids and ports are modelled as `Nat`
(they are non-negative integers in the API), JS strings as `String`,
`undefined`/`null` as `Option`, and JS `Map` objects as association lists in
insertion order (`Map.set` on an existing key keeps the original position and
replaces the value; `Map.delete` preserves the order of the rest).
-/
import Mathlib

namespace Ubiquityl

/-! ## Data model (udmClient.ts) -/

/-- The `UdmProtocol` from udmClient.ts: the domain protocol union
`'tcp' | 'udp' | 'tcp_udp'`. -/
inductive UdmProtocol where
  | tcp
  | udp
  | tcp_udp
deriving DecidableEq, Repr

/-- The literal string carried by a `UdmProtocol` value at runtime in the
TypeScript source (the union members are string literals). -/
def UdmProtocol.literal : UdmProtocol → String
  | .tcp => "tcp"
  | .udp => "udp"
  | .tcp_udp => "tcp_udp"

/-- The `RawPortForward` from udmClient.ts: the wire shape of one rule.  `_id` is
required by the interface; the remaining known fields are optional.  Unknown
extra keys are not modelled (no claim depends on them). -/
structure RawPortForward where
  rid : String
  name : Option String
  enabled : Option Bool
  dst_port : Option String
  fwd_port : Option String
  fwd : Option String
  proto : Option String
  src : Option String
  dst : Option String
  wanip : Option String
deriving DecidableEq, Repr

/-- The `PortForwardRule` from udmClient.ts (the domain view of a rule). -/
structure PortForwardRule where
  id : String
  name : String
  enabled : Bool
  externalPort : String
  internalPort : String
  internalIp : String
  protocol : UdmProtocol
  source : String
  destination : String
  wanIp : Option String
  raw : RawPortForward
deriving DecidableEq, Repr

/-- The `PortForwardRequest` from udmClient.ts (the desired-state value object). -/
structure PortForwardRequest where
  name : String
  enabled : Bool
  externalPort : Nat
  internalPort : Nat
  internalIp : String
  protocol : UdmProtocol
  source : String
  destination : String
  wanIp : String
deriving DecidableEq, Repr

/-- The `PortForwardPayload` from udmClient.ts: the outbound wire body for
create/update. -/
structure PortForwardPayload where
  rid : Option String
  name : String
  enabled : Bool
  proto : String
  dst_port : String
  fwd_port : String
  fwd : String
  src : String
  dst : String
  wanip : String
  site_id : String
deriving DecidableEq, Repr

/-! ## Decimal rendering and parsing

`buildRuleName` renders a JS number with a template literal and
`parseAllocationId` parses the digits with `Number.parseInt(-, 10)`.  For
non-negative integers the template literal produces the plain decimal digit
string; we embed that rendering directly.  The parse folds base-10 digits,
exactly what `parseInt` does on a string of ASCII digits. -/

/-- The ASCII digit character for a value `0..9`. -/
def digitChar : Nat → Char
  | 0 => '0'
  | 1 => '1'
  | 2 => '2'
  | 3 => '3'
  | 4 => '4'
  | 5 => '5'
  | 6 => '6'
  | 7 => '7'
  | 8 => '8'
  | 9 => '9'
  | _ => '*'

/-- Numeric value of an ASCII digit character. -/
def digitVal (c : Char) : Nat := c.toNat - 48

/-- Base-10 value of a digit string, folding left — the semantics of
`Number.parseInt(s, 10)` on a string of ASCII digits. -/
def digitsToNat (cs : List Char) : Nat :=
  cs.foldl (fun acc c => acc * 10 + digitVal c) 0

/-- Fuel-driven decimal rendering (most significant digit first).  The fuel is
only there to make the recursion structural; `natDigits` supplies enough. -/
def natDigitsAux : Nat → Nat → List Char
  | 0, _ => []
  | fuel + 1, n =>
    if n < 10 then [digitChar n]
    else natDigitsAux fuel (n / 10) ++ [digitChar (n % 10)]

/-- Decimal digit string of a non-negative integer — the JS template-literal
rendering `` `${n}` `` used by `buildRuleName`. -/
def natDigits (n : Nat) : List Char := natDigitsAux (n + 1) n

/-- Decimal string rendering of a non-negative JS number, also the semantics
of `String(n)` used by `isRuleOutOfSync` on ports. -/
def natRepr (n : Nat) : String := String.mk (natDigits n)

/-! ## Protocol (de)serialization (udmClient.ts) -/

/-- The `UdmClient.serializeProtocol`: the source returns the protocol string
unchanged (`return protocol;`), so the wire token is the domain literal. -/
def serializeProtocol (protocol : UdmProtocol) : String :=
  protocol.literal

/-- JS `String.prototype.toLowerCase`, character by character (the protocol
spellings involved are plain ASCII, where the two agree). -/
def jsToLower (s : String) : String :=
  String.mk (s.data.map Char.toLower)

/-- The `UdmClient.normalizeProtocol`: `undefined` and the empty string are falsy
and yield `tcp`; otherwise the lower-cased value is dispatched by the switch,
with `both`, `tcp_udp` and `tcp-udp` all mapping to `tcp_udp` and anything
unrecognized defaulting to `tcp`. -/
def normalizeProtocol (value : Option String) : UdmProtocol :=
  match value with
  | none => .tcp
  | some v =>
    if v = "" then .tcp
    else if jsToLower v = "tcp" then .tcp
    else if jsToLower v = "udp" then .udp
    else if jsToLower v = "both" ∨ jsToLower v = "tcp_udp" ∨ jsToLower v = "tcp-udp" then .tcp_udp
    else .tcp

/-- The `UdmClient.toPayload`: builds the outbound wire body; ports are rendered
with `String(-)`, the protocol with `serializeProtocol`. -/
def toPayload (site : String) (request : PortForwardRequest) : PortForwardPayload :=
  { rid := none
    name := request.name
    enabled := request.enabled
    proto := serializeProtocol request.protocol
    dst_port := natRepr request.externalPort
    fwd_port := natRepr request.internalPort
    fwd := request.internalIp
    src := request.source
    dst := request.destination
    wanip := request.wanIp
    site_id := site }

/-- The update body from `UdmClient.updatePortForward`:
`{ ...rule.raw, ...toPayload(request), _id: rule.id }`.  Every modelled payload
field is overwritten by the `toPayload` spread except `_id`, which comes from
the rule; unmodelled extra keys of `raw` are carried along unchanged. -/
def updatePayload (site : String) (rule : PortForwardRule)
    (request : PortForwardRequest) : PortForwardPayload :=
  { toPayload site request with rid := some rule.id }

/-- The `UdmClient.mapRawToRule`: fails (throws) when `_id` is falsy (absent from
the response or the empty string); otherwise fills defaults field by field and
normalizes the protocol. -/
def mapRawToRule (raw : RawPortForward) : Option PortForwardRule :=
  if raw.rid = "" then none
  else
    some
      { id := raw.rid
        name := raw.name.getD ""
        enabled := raw.enabled.getD true
        externalPort := raw.dst_port.getD ""
        internalPort := raw.fwd_port.getD ""
        internalIp := raw.fwd.getD ""
        protocol := normalizeProtocol raw.proto
        source := raw.src.getD "any"
        destination := raw.dst.getD "any"
        wanIp := raw.wanip
        raw := raw }

/-! ## Data model (pterodactylClient.ts, config) -/

/-- The `Allocation` from pterodactylClient.ts. -/
structure Allocation where
  id : Nat
  ip : String
  ipAlias : Option String
  port : Nat
  notes : Option String
  isDefault : Bool
deriving DecidableEq, Repr

/-- The `udm` section of `AppConfig` — the fields the sync service reads.
`targetIpMap` is a JSON object modelled as an association list with unique
keys; `namePrefix` in the source is called `prefixName` here. -/
structure UdmConfig where
  prefixName : String
  protocol : UdmProtocol
  source : String
  destination : String
  wanIp : String
  targetIpMap : List (String × String)
  defaultTargetIp : Option String
deriving DecidableEq, Repr

/-- JS object property lookup on the config's IP map. -/
def jsObjGet (m : List (String × String)) (k : String) : Option String :=
  (m.find? (fun p => p.1 = k)).map (·.2)

/-! ## JS `Map` model

Insertion-ordered association lists.  `Map.set` on a present key replaces the
value in place; on an absent key it appends.  `Map.get` returns the value of
the (unique) matching entry; `Map.delete` removes it keeping the order of the
rest. -/

/-- JS `Map.prototype.set`. -/
def mapSet {α : Type} (m : List (Nat × α)) (k : Nat) (v : α) : List (Nat × α) :=
  if m.any (fun p => p.1 = k) then
    m.map (fun p => if p.1 = k then (k, v) else p)
  else m ++ [(k, v)]

/-- JS `Map.prototype.get` (`undefined` ↦ `none`). -/
def mapGet {α : Type} (m : List (Nat × α)) (k : Nat) : Option α :=
  (m.find? (fun p => p.1 = k)).map (·.2)

/-- JS `Map.prototype.delete` (result state only). -/
def mapDelete {α : Type} (m : List (Nat × α)) (k : Nat) : List (Nat × α) :=
  m.filter (fun p => p.1 ≠ k)

/-! ## SyncService (syncService.ts) -/

/-- The `String.prototype.startsWith`, expressed on the character lists. -/
def strStartsWith (p s : String) : Bool :=
  p.data.isPrefixOf s.data

/-- The `SyncService.buildRuleName`: `` `${namePrefix}${allocationId}` ``. -/
def buildRuleName (cfg : UdmConfig) (allocationId : Nat) : String :=
  cfg.prefixName ++ natRepr allocationId

/-- The `SyncService.parseAllocationId`: the name matches the anchored pattern
`^<escaped prefix>(\d+)$` — the literal prefix followed by one or more ASCII
digits and nothing else — and the digit group is parsed with
`Number.parseInt(-, 10)` (which cannot be `NaN` on a non-empty digit string). -/
def parseAllocationId (cfg : UdmConfig) (name : String) : Option Nat :=
  if cfg.prefixName.data.isPrefixOf name.data then
    let digits := name.data.drop cfg.prefixName.data.length
    if digits ≠ [] ∧ digits.all (fun c => c.isDigit) then
      some (digitsToNat digits)
    else none
  else none

/-- The alias lookup and default fallback of `SyncService.resolveTargetIp`
(its second and third steps). -/
def resolveTargetIpAliasStep (cfg : UdmConfig) (allocation : Allocation) : Option String :=
  match allocation.ipAlias with
  | some aliasIp =>
    if aliasIp ≠ "" then
      match jsObjGet cfg.targetIpMap aliasIp with
      | some t => if t ≠ "" then some t else cfg.defaultTargetIp
      | none => cfg.defaultTargetIp
    else cfg.defaultTargetIp
  | none => cfg.defaultTargetIp

/-- The `SyncService.resolveTargetIp`: IP-map entry for the external IP (a falsy —
empty — mapped value does not count), else for the alias when the alias itself
is truthy, else the configured default (or `null`). -/
def resolveTargetIp (cfg : UdmConfig) (allocation : Allocation) : Option String :=
  match jsObjGet cfg.targetIpMap allocation.ip with
  | some t =>
    if t ≠ "" then some t
    else resolveTargetIpAliasStep cfg allocation
  | none => resolveTargetIpAliasStep cfg allocation

/-- The `SyncService.buildPortForwardRequest`: `null` when the resolved target IP
is falsy (`null` or the empty string); otherwise the desired request with both
ports set to the allocation's port and policy fields from the config. -/
def buildPortForwardRequest (cfg : UdmConfig) (allocation : Allocation) :
    Option PortForwardRequest :=
  match resolveTargetIp cfg allocation with
  | none => none
  | some targetIp =>
    if targetIp = "" then none
    else
      some
        { name := buildRuleName cfg allocation.id
          enabled := true
          externalPort := allocation.port
          internalPort := allocation.port
          internalIp := targetIp
          protocol := cfg.protocol
          source := cfg.source
          destination := cfg.destination
          wanIp := cfg.wanIp }

/-- The `SyncService.isRuleOutOfSync`: the early-return chain of field
comparisons; ports are compared against `String(-)` of the numeric desired
value, a missing `wanIp` is replaced by `"any"`, and the enabled flag is only
checked in the disabled-but-should-be-enabled direction. -/
def isRuleOutOfSync (rule : PortForwardRule) (target : PortForwardRequest) : Bool :=
  if rule.internalIp ≠ target.internalIp then true
  else if rule.internalPort ≠ natRepr target.internalPort then true
  else if rule.externalPort ≠ natRepr target.externalPort then true
  else if !rule.enabled && target.enabled then true
  else if rule.protocol ≠ target.protocol then true
  else if rule.source ≠ target.source then true
  else if rule.destination ≠ target.destination then true
  else if rule.wanIp.getD "any" ≠ target.wanIp then true
  else false

/-- The `SyncService.extractRelevantRules`: walk the fetched rules in order; skip
names without the managed prefix silently, warn (collecting the rule name) and
skip prefixed-but-unparseable names, and `Map.set` the parsed id for the rest,
so a later rule with the same id replaces an earlier one. -/
def extractRelevantRules (cfg : UdmConfig) (rules : List PortForwardRule) :
    List (Nat × PortForwardRule) × List String :=
  rules.foldl
    (fun acc rule =>
      if !(strStartsWith cfg.prefixName rule.name) then acc
      else
        match parseAllocationId cfg rule.name with
        | none => (acc.1, acc.2 ++ [rule.name])
        | some maybeId => (mapSet acc.1 maybeId rule, acc.2))
    ([], [])

/-- The change set computed by `SyncService.reconcileRules`. -/
structure ChangeSet where
  toCreate : List (Allocation × PortForwardRequest)
  toUpdate : List (PortForwardRule × PortForwardRequest)
  toDelete : List PortForwardRule
deriving DecidableEq, Repr

/-- Accumulator of the first loop of `reconcileRules` (over the managed-rule
map): deletions, updates, warned allocation ids, and the shrinking allocation
map. -/
structure ReconcileLoopState where
  toDelete : List PortForwardRule
  toUpdate : List (PortForwardRule × PortForwardRequest)
  warned : List Nat
  allocations : List (Nat × Allocation)

/-- One iteration of the first loop of `reconcileRules`: a rule whose id has
no allocation is marked for deletion; a rule whose allocation has no
resolvable target is warned and skipped (note: the allocation is *not*
removed from the pool); otherwise the rule is updated when out of sync and the
allocation is removed from the pool. -/
def reconcileExistingStep (cfg : UdmConfig) (st : ReconcileLoopState)
    (entry : Nat × PortForwardRule) : ReconcileLoopState :=
  let (allocationId, rule) := entry
  match mapGet st.allocations allocationId with
  | none => { st with toDelete := st.toDelete ++ [rule] }
  | some allocation =>
    match buildPortForwardRequest cfg allocation with
    | none => { st with warned := st.warned ++ [allocation.id] }
    | some targetConfig =>
      { st with
        toUpdate :=
          if isRuleOutOfSync rule targetConfig then st.toUpdate ++ [(rule, targetConfig)]
          else st.toUpdate
        allocations := mapDelete st.allocations allocationId }

/-- One iteration of the second loop of `reconcileRules` (over the remaining
allocations): warn and skip when no target resolves, otherwise mark for
creation. -/
def reconcileCreateStep (cfg : UdmConfig)
    (st : List (Allocation × PortForwardRequest) × List Nat) (entry : Nat × Allocation) :
    List (Allocation × PortForwardRequest) × List Nat :=
  let allocation := entry.2
  match buildPortForwardRequest cfg allocation with
  | none => (st.1, st.2 ++ [allocation.id])
  | some targetConfig => (st.1 ++ [(allocation, targetConfig)], st.2)

/-- The `SyncService.reconcileRules` up to the point where `applyChanges` is
invoked: the computed change set, together with the allocation ids of the
"missing target IP mapping" warnings in emission order. -/
def reconcileRules (cfg : UdmConfig) (allocations : List (Nat × Allocation))
    (existingRules : List (Nat × PortForwardRule)) : ChangeSet × List Nat :=
  let st := existingRules.foldl (reconcileExistingStep cfg)
    { toDelete := [], toUpdate := [], warned := [], allocations := allocations }
  let created := st.allocations.foldl (reconcileCreateStep cfg) ([], [])
  ({ toCreate := created.1, toUpdate := st.toUpdate, toDelete := st.toDelete },
   st.warned ++ created.2)

/-- One remote mutation issued by `SyncService.applyChanges`. -/
inductive UdmCall where
  | deleteCall (id : String)
  | updateCall (ruleId : String) (input : PortForwardRequest)
  | createCall (input : PortForwardRequest)
deriving DecidableEq, Repr

/-- Is this call a `UdmCall.deleteCall`? -/
def UdmCall.isDeleteCall : UdmCall → Bool
  | .deleteCall _ => true
  | _ => false

/-- Is this call a `UdmCall.updateCall`? -/
def UdmCall.isUpdateCall : UdmCall → Bool
  | .updateCall _ _ => true
  | _ => false

/-- Is this call a `UdmCall.createCall`? -/
def UdmCall.isCreateCall : UdmCall → Bool
  | .createCall _ => true
  | _ => false

/-- The `SyncService.applyChanges`: the sequence of remote calls it awaits, in
program order — first every deletion, then every update, then every creation. -/
def applyChanges (changeSet : ChangeSet) : List UdmCall :=
  changeSet.toDelete.map (fun rule => .deleteCall rule.id)
    ++ changeSet.toUpdate.map (fun p => .updateCall p.1.id p.2)
    ++ changeSet.toCreate.map (fun p => .createCall p.2)

/-- The data path of one `runSyncCycle`: extract the managed addressable rule
map (warning on unparseable prefixed names), key the fetched allocations by id
(`Map.set` in list order), and reconcile.  Returns the change set, the
unparseable-rule-name warnings, and the missing-target warnings. -/
def runCycleChanges (cfg : UdmConfig) (allocations : List Allocation)
    (existingRules : List PortForwardRule) : ChangeSet × List String × List Nat :=
  let extracted := extractRelevantRules cfg existingRules
  let desiredAllocations := allocations.foldl (fun m a => mapSet m a.id a) []
  let reconciled := reconcileRules cfg desiredAllocations extracted.1
  (reconciled.1, extracted.2, reconciled.2)

/-! ## Session and request retry (udmClient.ts)

The client is driven by Node's single-threaded event loop: the synchronous
prefix of a method runs atomically up to its first `await`.  We model the
session state explicitly and the observable outcome of each HTTP attempt by an
oracle indexed by the attempt counter. -/

/-- The per-instance session: the cookie jar and the CSRF token. -/
structure UdmSession where
  cookieJar : List String
  csrfToken : Option String
deriving DecidableEq, Repr

/-- The `UdmClient.resetSession` (also the body of `invalidateAuth`): a brand-new
empty cookie jar and a cleared CSRF token, whatever the previous session held. -/
def resetSession (_session : UdmSession) : UdmSession :=
  { cookieJar := [], csrfToken := none }

/-- Observable outcome of one HTTP attempt: a successful response (abstracted
to a payload value) or an axios error carrying the optional response status
(`none` models an error without a response, e.g. a timeout). -/
inductive AttemptOutcome where
  | ok (response : Nat)
  | err (status : Option Nat)
deriving DecidableEq, Repr

/-- The `UdmClient.isAuthError`: an axios error whose response status is 401 or
403; an error without a status is not an auth error. -/
def isAuthError (status : Option Nat) : Bool :=
  status = some 401 ∨ status = some 403

/-- Events observable from one logical `UdmClient.request`: the HTTP attempt
with its attempt counter, and the full session reset done by
`invalidateAuth`. -/
inductive ReqEvent where
  | attempt (n : Nat)
  | authReset
deriving DecidableEq, Repr

/-- The `UdmClient.request`: issue the attempt; on an axios error that is an auth
failure while `attempt === 0`, invalidate the session and recurse once with
`attempt + 1` on the same config; every other error propagates.  The outcome
oracle gives each attempt's result; the event list records what happened in
order. -/
def requestFrom (outcomes : Nat → AttemptOutcome) (attempt : Nat) :
    Except (Option Nat) Nat × List ReqEvent :=
  match outcomes attempt with
  | .ok response => (.ok response, [.attempt attempt])
  | .err status =>
    if h : attempt = 0 ∧ isAuthError status = true then
      let retried := requestFrom outcomes (attempt + 1)
      (retried.1, .attempt attempt :: .authReset :: retried.2)
    else (.error status, [.attempt attempt])
termination_by 1 - attempt
decreasing_by obtain ⟨h0, -⟩ := h; subst h0; omega

/-- The client-side authentication state relevant to `ensureAuthenticated`:
the session, whether `loginPromise` is non-null, and a counter of login calls
actually started (for the single-flight property). -/
structure ClientAuthState where
  session : UdmSession
  loginInFlight : Bool
  loginStarts : Nat
deriving DecidableEq, Repr

/-- What one caller of `ensureAuthenticated` observes on entry. -/
inductive EnsureEntry where
  | noop
  | awaitLogin
deriving DecidableEq, Repr

/-- The synchronous prefix of `UdmClient.ensureAuthenticated` (it runs
atomically on the event loop): return immediately when a CSRF token is held;
otherwise start a login — counted — unless one is already in flight; either
way the caller then awaits the in-flight login. -/
def ensureAuthenticatedEnter (st : ClientAuthState) : ClientAuthState × EnsureEntry :=
  if st.session.csrfToken.isSome then (st, .noop)
  else if st.loginInFlight then (st, .awaitLogin)
  else ({ st with loginInFlight := true, loginStarts := st.loginStarts + 1 }, .awaitLogin)

/-- A batch of concurrent callers entering `ensureAuthenticated` one after the
other on the event loop, before the login settles: the resulting state and
each caller's observation in order. -/
def ensureAuthenticatedEnterAll (st : ClientAuthState) :
    Nat → ClientAuthState × List EnsureEntry
  | 0 => (st, [])
  | k + 1 =>
    let first := ensureAuthenticatedEnter st
    let rest := ensureAuthenticatedEnterAll first.1 k
    (rest.1, first.2 :: rest.2)

/-- The in-flight login settling, and the awaiting `ensureAuthenticated`
callers running their `finally`: on success (`some token`, from
`authenticate`) the CSRF token is stored; on failure the token stays as the
initial `resetSession` left it; in both cases `loginPromise` is nulled. -/
def loginComplete (st : ClientAuthState) (result : Option String) : ClientAuthState :=
  { st with
    session :=
      match result with
      | some token => { st.session with csrfToken := some token }
      | none => resetSession st.session
    loginInFlight := false }

/-! ## Concrete fixtures

Closed sample values used by witnesses and counterexamples below; they play
the role of the test fixtures in the repository's own test suite. -/

/-- Fixture: a config with the default prefix and policy and one IP-map
entry. -/
def cfgFix : UdmConfig :=
  { prefixName := "ptero-alloc-", protocol := .tcp_udp, source := "any",
    destination := "any", wanIp := "any",
    targetIpMap := [("198.51.100.10", "10.0.1.10")], defaultTargetIp := none }

/-- Fixture: a config with no IP-map entry and no default target IP, so no
target IP can ever resolve. -/
def cfgNoMap : UdmConfig :=
  { prefixName := "ptero-alloc-", protocol := .tcp_udp, source := "any",
    destination := "any", wanIp := "any", targetIpMap := [],
    defaultTargetIp := none }

/-- Fixture: a raw wire rule using the `Both` protocol spelling. -/
def rawFix : RawPortForward :=
  { rid := "raw-1", name := some "ptero-alloc-101", enabled := some true,
    dst_port := some "25565", fwd_port := some "25565", fwd := some "10.0.1.10",
    proto := some "Both", src := some "any", dst := some "any", wanip := none }

/-- Fixture: a managed rule with the given appliance id and name. -/
def mkRule (rid nm : String) : PortForwardRule :=
  { id := rid, name := nm, enabled := true, externalPort := "25565",
    internalPort := "25565", internalIp := "10.0.1.10", protocol := .tcp_udp,
    source := "any", destination := "any", wanIp := none, raw := rawFix }

/-- Fixture: an allocation with the given id, port and external IP. -/
def mkAlloc (id port : Nat) (ip : String) : Allocation :=
  { id := id, ip := ip, ipAlias := none, port := port, notes := none,
    isDefault := false }

/-- Fixture: a desired request with the dual protocol. -/
def reqFix : PortForwardRequest :=
  { name := "ptero-alloc-101", enabled := true, externalPort := 25565,
    internalPort := 25565, internalIp := "10.0.1.10", protocol := .tcp_udp,
    source := "any", destination := "any", wanIp := "any" }

/-! ## Decimal rendering: basic lemmas -/

theorem digitVal_digitChar {d : Nat} (hd : d < 10) : digitVal (digitChar d) = d := by
  interval_cases d <;> rfl

theorem isDigit_digitChar {d : Nat} (hd : d < 10) : (digitChar d).isDigit = true := by
  interval_cases d <;> rfl

theorem digitsToNat_append_singleton (l : List Char) (c : Char) :
    digitsToNat (l ++ [c]) = digitsToNat l * 10 + digitVal c := by
  simp [digitsToNat, List.foldl_append]

theorem natDigitsAux_spec :
    ∀ fuel n, n < fuel →
      digitsToNat (natDigitsAux fuel n) = n ∧ natDigitsAux fuel n ≠ [] ∧
        ∀ c ∈ natDigitsAux fuel n, c.isDigit = true := by
  intro fuel
  induction fuel with
  | zero => intro n hn; omega
  | succ fuel ih =>
    intro n hn
    by_cases h10 : n < 10
    · refine ⟨?_, ?_, ?_⟩
      · simp [natDigitsAux, h10, digitsToNat, digitVal_digitChar h10]
      · simp [natDigitsAux, h10]
      · simp [natDigitsAux, h10, isDigit_digitChar h10]
    · have hdiv : n / 10 < fuel := by
        have h1 : n / 10 < n := Nat.div_lt_self (by omega) (by omega)
        omega
      obtain ⟨ihval, -, ihdig⟩ := ih (n / 10) hdiv
      have hmod : n % 10 < 10 := Nat.mod_lt _ (by omega)
      refine ⟨?_, ?_, ?_⟩
      · simp only [natDigitsAux, if_neg h10]
        rw [digitsToNat_append_singleton, ihval, digitVal_digitChar hmod]
        omega
      · simp [natDigitsAux, h10]
      · simp only [natDigitsAux, if_neg h10]
        intro c hc
        rcases List.mem_append.mp hc with hc | hc
        · exact ihdig c hc
        · simp only [List.mem_singleton] at hc
          simpa [hc] using isDigit_digitChar hmod

theorem digitsToNat_natDigits (n : Nat) : digitsToNat (natDigits n) = n :=
  (natDigitsAux_spec (n + 1) n (by omega)).1

theorem natDigits_ne_nil (n : Nat) : natDigits n ≠ [] :=
  (natDigitsAux_spec (n + 1) n (by omega)).2.1

theorem natDigits_all_digits (n : Nat) : ∀ c ∈ natDigits n, c.isDigit = true :=
  (natDigitsAux_spec (n + 1) n (by omega)).2.2

/-! ## Rule-name round trip (C5) -/

theorem buildRuleName_data (cfg : UdmConfig) (id : Nat) :
    (buildRuleName cfg id).data = cfg.prefixName.data ++ natDigits id := by
  simp [buildRuleName, natRepr, String.data_append]

theorem parseAllocationId_buildRuleName (cfg : UdmConfig) (id : Nat) :
    parseAllocationId cfg (buildRuleName cfg id) = some id := by
  have hdata := buildRuleName_data cfg id
  have hpre : cfg.prefixName.data.isPrefixOf (buildRuleName cfg id).data = true := by
    rw [hdata, List.isPrefixOf_iff_prefix]
    exact List.prefix_append _ _
  have hdrop : (buildRuleName cfg id).data.drop cfg.prefixName.data.length = natDigits id := by
    rw [hdata, List.drop_left]
  rw [parseAllocationId, if_pos hpre, hdrop]
  rw [if_pos ⟨natDigits_ne_nil id, by
    rw [List.all_eq_true]; intro c hc; exact natDigits_all_digits id c hc⟩]
  rw [digitsToNat_natDigits]

theorem parseAllocationId_some_shape (cfg : UdmConfig) (name : String)
    (h : parseAllocationId cfg name ≠ none) :
    ∃ ds, name.data = cfg.prefixName.data ++ ds ∧ ds ≠ [] ∧ ∀ c ∈ ds, c.isDigit = true := by
  rw [parseAllocationId] at h
  by_cases hpre : cfg.prefixName.data.isPrefixOf name.data = true
  · rw [if_pos hpre] at h
    set ds := name.data.drop cfg.prefixName.data.length with hds
    by_cases hcond : ds ≠ [] ∧ ds.all (fun c => c.isDigit) = true
    · obtain ⟨t, ht⟩ := List.isPrefixOf_iff_prefix.mp hpre
      refine ⟨ds, ?_, hcond.1, ?_⟩
      · have : t = ds := by
          rw [hds, ← ht, List.drop_left]
        rw [← ht, this]
      · intro c hc
        exact (List.all_eq_true.mp hcond.2) c hc
    · rw [if_neg hcond] at h
      exact absurd rfl h
  · rw [if_neg hpre] at h
    exact absurd rfl h

/-- C5: for every non-negative allocation id and configured prefix, parsing
the name produced by `buildRuleName` recovers exactly the original id; and a
name that is not the prefix followed by one or more decimal digits never
parses to an id (contrapositive: a name that parses at all has that shape). -/
theorem claim5_name_round_trip :
    (∀ (cfg : UdmConfig) (id : Nat),
      parseAllocationId cfg (buildRuleName cfg id) = some id)
    ∧ (∀ (cfg : UdmConfig) (name : String), parseAllocationId cfg name ≠ none →
        ∃ ds, name.data = cfg.prefixName.data ++ ds ∧ ds ≠ [] ∧
          ∀ c ∈ ds, c.isDigit = true) :=
  ⟨parseAllocationId_buildRuleName, parseAllocationId_some_shape⟩

/-- C5 witness: the round trip at prefix `ptero-alloc-` and id 101, and the
shape consequence at the concrete parseable name `ptero-alloc-7`. -/
theorem claim5_name_round_trip_witness :
    parseAllocationId
        { prefixName := "ptero-alloc-", protocol := .tcp_udp, source := "any",
          destination := "any", wanIp := "any", targetIpMap := [],
          defaultTargetIp := none } (buildRuleName
        { prefixName := "ptero-alloc-", protocol := .tcp_udp, source := "any",
          destination := "any", wanIp := "any", targetIpMap := [],
          defaultTargetIp := none } 101) = some 101
    ∧ ∃ ds, ("ptero-alloc-7" : String).data =
        ("ptero-alloc-" : String).data ++ ds ∧ ds ≠ [] ∧ ∀ c ∈ ds, c.isDigit = true :=
  ⟨claim5_name_round_trip.1 _ 101,
   claim5_name_round_trip.2
     { prefixName := "ptero-alloc-", protocol := .tcp_udp, source := "any",
       destination := "any", wanIp := "any", targetIpMap := [],
       defaultTargetIp := none } "ptero-alloc-7" (by decide)⟩

/-! ## Drift predicate (C1) -/

/-- C1: `isRuleOutOfSync` flags a rule against a desired request exactly when
the internal IP, the internal or external port (the numeric desired port
rendered as a decimal string), the protocol, the source filter, the
destination filter, or the WAN-IP binding (a missing `wanIp` read as `"any"`)
differ, or the rule is disabled while the request is enabled.  In particular an
enabled rule with a disabled request is not flagged, and a rule equal in every
compared field is not flagged. -/
theorem claim1_drift_predicate_iff (rule : PortForwardRule) (target : PortForwardRequest) :
    isRuleOutOfSync rule target = true ↔
      rule.internalIp ≠ target.internalIp ∨
      rule.internalPort ≠ natRepr target.internalPort ∨
      rule.externalPort ≠ natRepr target.externalPort ∨
      (rule.enabled = false ∧ target.enabled = true) ∨
      rule.protocol ≠ target.protocol ∨
      rule.source ≠ target.source ∨
      rule.destination ≠ target.destination ∨
      rule.wanIp.getD "any" ≠ target.wanIp := by
  rw [isRuleOutOfSync]
  split_ifs with h1 h2 h3 h4 h5 h6 h7 h8 <;>
    simp_all [Bool.and_eq_true, Bool.not_eq_true']

/-! ## Protocol wire mapping (C2) -/

/-- C2 counterexample: at the concrete dual-protocol request `reqFix`, the
create payload's wire `proto` is the domain literal `tcp_udp`, not the
appliance's `both` token — `serializeProtocol` returns the protocol string
unchanged, refuting the claim that `tcp_udp` serializes to `both`. -/
theorem claim2_counterexample :
    (toPayload "default" reqFix).proto = "tcp_udp" ∧
      ¬((toPayload "default" reqFix).proto = "both") := by
  constructor <;> decide

/-- C2 (amended): create and update payloads serialize the protocol with
`serializeProtocol`, which is the identity on the domain literals — `tcp_udp`
goes on the wire as `tcp_udp`, not `both`; inbound rules deserialize `proto`
through `normalizeProtocol`, which maps any of the spellings `both`,
`tcp_udp`, `tcp-udp` (case-insensitively) to `tcp_udp`, and normalizes a
missing or unrecognized value to `tcp`. -/
theorem claim2_protocol_wire_mapping :
    (∀ (site : String) (request : PortForwardRequest),
      (toPayload site request).proto = serializeProtocol request.protocol)
    ∧ (∀ (site : String) (rule : PortForwardRule) (request : PortForwardRequest),
        (updatePayload site rule request).proto = serializeProtocol request.protocol)
    ∧ serializeProtocol UdmProtocol.tcp_udp = "tcp_udp"
    ∧ (∀ (raw : RawPortForward) (rule : PortForwardRule),
        mapRawToRule raw = some rule → rule.protocol = normalizeProtocol raw.proto)
    ∧ (∀ v : String, normalizeProtocol (some v) = UdmProtocol.tcp_udp ↔
        (jsToLower v = "both" ∨ jsToLower v = "tcp_udp" ∨ jsToLower v = "tcp-udp"))
    ∧ normalizeProtocol none = UdmProtocol.tcp
    ∧ (∀ v : String, jsToLower v ≠ "udp" →
        ¬(jsToLower v = "both" ∨ jsToLower v = "tcp_udp" ∨ jsToLower v = "tcp-udp") →
        normalizeProtocol (some v) = UdmProtocol.tcp) := by
  refine ⟨fun _ _ => rfl, fun _ _ _ => rfl, rfl, ?_, ?_, rfl, ?_⟩
  · intro raw rule h
    rw [mapRawToRule] at h
    split_ifs at h
    exact (Option.some_inj.mp h) ▸ rfl
  · intro v
    rw [normalizeProtocol]
    by_cases h0 : v = ""
    · subst h0; decide
    · rw [if_neg h0]
      split_ifs with h1 h2 h3 <;> simp_all
  · intro v hudp hdual
    rw [normalizeProtocol]
    by_cases h0 : v = ""
    · simp [h0]
    · rw [if_neg h0]
      split_ifs <;> simp_all

/-- C2 witness: the inbound mapping at the concrete raw rule `rawFix` (whose
wire protocol is the spelling `Both`), and the unrecognized spelling `weird`
normalizing to `tcp`. -/
theorem claim2_protocol_wire_mapping_witness :
    mapRawToRule rawFix = some (mkRule "raw-1" "ptero-alloc-101") ∧
      (mkRule "raw-1" "ptero-alloc-101").protocol = normalizeProtocol rawFix.proto ∧
      normalizeProtocol (some "weird") = UdmProtocol.tcp :=
  ⟨by decide,
   claim2_protocol_wire_mapping.2.2.2.1 rawFix (mkRule "raw-1" "ptero-alloc-101") (by decide),
   claim2_protocol_wire_mapping.2.2.2.2.2.2 "weird" (by decide) (by decide)⟩

/-! ## Request retry on auth failure (C3) -/

theorem requestFrom_attempt_one (outcomes : Nat → AttemptOutcome) :
    requestFrom outcomes 1 =
      match outcomes 1 with
      | .ok r => (Except.ok r, [ReqEvent.attempt 1])
      | .err s => (Except.error s, [ReqEvent.attempt 1]) := by
  rw [requestFrom]
  cases outcomes 1 with
  | ok r => rfl
  | err s =>
    have hcond : ¬(1 = 0 ∧ isAuthError s = true) := fun h => absurd h.1 one_ne_zero
    exact dif_neg hcond

/-- C3: when the first attempt of a logical request fails with an
authentication status (401 or 403, and only those count as auth errors), the
client performs exactly one full session invalidation — `resetSession` yields
a brand-new empty cookie jar and no CSRF token — and retries the same request
exactly once, its result (success or any second failure, auth or not)
propagating with no further reset or retry; a first-attempt error with any
other status propagates immediately with no reset and no retry. -/
theorem claim3_reauth_retry_once (outcomes : Nat → AttemptOutcome) (status : Option Nat)
    (hfail : outcomes 0 = .err status) :
    (isAuthError status = true →
      requestFrom outcomes 0 =
        ((match outcomes 1 with
          | .ok r => Except.ok r
          | .err s2 => Except.error s2),
         [ReqEvent.attempt 0, ReqEvent.authReset, ReqEvent.attempt 1]))
    ∧ (isAuthError status = false →
        requestFrom outcomes 0 = (Except.error status, [ReqEvent.attempt 0]))
    ∧ (isAuthError status = true ↔ status = some 401 ∨ status = some 403)
    ∧ (∀ session : UdmSession,
        resetSession session = { cookieJar := [], csrfToken := none }) := by
  refine ⟨?_, ?_, ?_, fun _ => rfl⟩
  · intro hauth
    rw [requestFrom, hfail]
    show (if h : 0 = 0 ∧ isAuthError status = true then
            ((requestFrom outcomes 1).1,
             ReqEvent.attempt 0 :: ReqEvent.authReset :: (requestFrom outcomes 1).2)
          else (Except.error status, [ReqEvent.attempt 0])) = _
    rw [dif_pos ⟨rfl, hauth⟩, requestFrom_attempt_one]
    cases outcomes 1 <;> rfl
  · intro hnot
    have hcond : ¬(0 = 0 ∧ isAuthError status = true) := fun h => by
      simp [hnot] at h
    rw [requestFrom, hfail]
    show (if h : 0 = 0 ∧ isAuthError status = true then
            ((requestFrom outcomes 1).1,
             ReqEvent.attempt 0 :: ReqEvent.authReset :: (requestFrom outcomes 1).2)
          else (Except.error status, [ReqEvent.attempt 0])) = _
    exact dif_neg hcond
  · simp [isAuthError]

/-- C3 witness: with every attempt answering 401, the request resets once,
retries once, and propagates the second 401 with no further reset. -/
theorem claim3_reauth_retry_once_witness :
    requestFrom (fun _ => AttemptOutcome.err (some 401)) 0 =
      (Except.error (some 401),
       [ReqEvent.attempt 0, ReqEvent.authReset, ReqEvent.attempt 1]) := by
  have h := (claim3_reauth_retry_once (fun _ => AttemptOutcome.err (some 401))
    (some 401) rfl).1 (by decide)
  simpa using h

/-! ## Single-flight login (C4) -/

theorem ensureAuthenticatedEnterAll_inflight (st : ClientAuthState)
    (htok : st.session.csrfToken = none) (hfly : st.loginInFlight = true) :
    ∀ k, ensureAuthenticatedEnterAll st k = (st, List.replicate k .awaitLogin) := by
  intro k
  induction k with
  | zero => rfl
  | succ k ih =>
    have hstep : ensureAuthenticatedEnter st = (st, .awaitLogin) := by
      rw [ensureAuthenticatedEnter, if_neg (by simp [htok]), if_pos hfly]
    simp [ensureAuthenticatedEnterAll, hstep, ih, List.replicate_succ]

/-- C4: `ensureAuthenticated` is a no-op whenever a CSRF token is held; when
the client is unauthenticated (no token, no login in flight), any positive
number of concurrent callers entering before the login settles starts exactly
one login, every caller awaiting that single in-flight login; and the
in-flight marker is cleared when the login completes, whether it succeeded
(`some token`) or failed (`none`). -/
theorem claim4_single_flight_login :
    (∀ st : ClientAuthState, st.session.csrfToken.isSome = true →
      ensureAuthenticatedEnter st = (st, .noop))
    ∧ (∀ (st : ClientAuthState) (k : Nat), st.session.csrfToken = none →
        st.loginInFlight = false → 1 ≤ k →
        (ensureAuthenticatedEnterAll st k).1.loginStarts = st.loginStarts + 1 ∧
          (ensureAuthenticatedEnterAll st k).2 = List.replicate k .awaitLogin)
    ∧ (∀ (st : ClientAuthState) (result : Option String),
        (loginComplete st result).loginInFlight = false) := by
  refine ⟨?_, ?_, fun _ _ => rfl⟩
  · intro st htok
    rw [ensureAuthenticatedEnter, if_pos htok]
  · intro st k htok hfly hk
    cases k with
    | zero => omega
    | succ k =>
      have hstep : ensureAuthenticatedEnter st =
          ({ st with loginInFlight := true, loginStarts := st.loginStarts + 1 },
           .awaitLogin) := by
        rw [ensureAuthenticatedEnter, if_neg (by simp [htok]), if_neg (by simp [hfly])]
      have hrest := ensureAuthenticatedEnterAll_inflight
        { st with loginInFlight := true, loginStarts := st.loginStarts + 1 }
        htok rfl k
      constructor
      · simp [ensureAuthenticatedEnterAll, hstep, hrest]
      · simp [ensureAuthenticatedEnterAll, hstep, hrest, List.replicate_succ]

/-- C4 witness: three callers entering a fresh unauthenticated client start
exactly one login and all await it. -/
theorem claim4_single_flight_login_witness :
    (ensureAuthenticatedEnterAll
        { session := { cookieJar := [], csrfToken := none },
          loginInFlight := false, loginStarts := 0 } 3).1.loginStarts = 0 + 1 ∧
      (ensureAuthenticatedEnterAll
        { session := { cookieJar := [], csrfToken := none },
          loginInFlight := false, loginStarts := 0 } 3).2 =
        List.replicate 3 .awaitLogin :=
  claim4_single_flight_login.2.1
    { session := { cookieJar := [], csrfToken := none },
      loginInFlight := false, loginStarts := 0 } 3 rfl rfl (by decide)

/-! ## Apply ordering (C7) -/

theorem get_append_mem_right {α : Type} (A D : List α) (i : Nat)
    (hi : i < (A ++ D).length) (hge : A.length ≤ i) :
    (A ++ D).get ⟨i, hi⟩ ∈ D := by
  rw [List.get_eq_getElem, List.getElem_append_right hge]
  exact List.getElem_mem _

theorem get_append_mem_left {α : Type} (A D : List α) (i : Nat)
    (hi : i < (A ++ D).length) (hlt : i < A.length) :
    (A ++ D).get ⟨i, hi⟩ ∈ A := by
  rw [List.get_eq_getElem, List.getElem_append_left hlt]
  exact List.getElem_mem _

theorem append3_get_segment {α : Type} (A B C : List α) (i : Nat)
    (hi : i < ((A ++ B) ++ C).length) :
    (i < A.length ∧ ((A ++ B) ++ C).get ⟨i, hi⟩ ∈ A)
      ∨ (A.length ≤ i ∧ i < A.length + B.length ∧ ((A ++ B) ++ C).get ⟨i, hi⟩ ∈ B)
      ∨ (A.length + B.length ≤ i ∧ ((A ++ B) ++ C).get ⟨i, hi⟩ ∈ C) := by
  by_cases h1 : i < A.length
  · left
    refine ⟨h1, ?_⟩
    have heq : ((A ++ B) ++ C).get ⟨i, hi⟩ = A.get ⟨i, h1⟩ := by
      rw [List.get_eq_getElem, List.get_eq_getElem,
        List.getElem_append_left (by simp [List.length_append]; omega),
        List.getElem_append_left h1]
    rw [heq]
    exact List.get_mem _ _ _
  · push_neg at h1
    by_cases h2 : i < A.length + B.length
    · right; left
      refine ⟨h1, h2, ?_⟩
      have heq : ((A ++ B) ++ C).get ⟨i, hi⟩ = (A ++ B).get
          ⟨i, by simp [List.length_append]; omega⟩ := by
        rw [List.get_eq_getElem, List.get_eq_getElem,
          List.getElem_append_left (by simp [List.length_append]; omega)]
      rw [heq]
      exact get_append_mem_right A B i _ h1
    · push_neg at h2
      right; right
      refine ⟨h2, ?_⟩
      exact get_append_mem_right (A ++ B) C i hi (by simp [List.length_append]; omega)

theorem bool_tf_absurd {b : Bool} (h1 : b = true) (h2 : b = false) : False := by
  rw [h1] at h2
  exact absurd h2 (by decide)

theorem append3_call_order {α : Type} (A B C : List α) (pd pu pc : α → Bool)
    (hA : ∀ x ∈ A, pu x = false ∧ pc x = false)
    (hB : ∀ x ∈ B, pd x = false ∧ pc x = false)
    (hC : ∀ x ∈ C, pd x = false ∧ pu x = false)
    (i j : Nat) (hi : i < ((A ++ B) ++ C).length) (hj : j < ((A ++ B) ++ C).length) :
    (pd (((A ++ B) ++ C).get ⟨i, hi⟩) = true →
      (pu (((A ++ B) ++ C).get ⟨j, hj⟩) = true ∨
        pc (((A ++ B) ++ C).get ⟨j, hj⟩) = true) → i < j)
    ∧ (pu (((A ++ B) ++ C).get ⟨i, hi⟩) = true →
        pc (((A ++ B) ++ C).get ⟨j, hj⟩) = true → i < j) := by
  have hseg_i := append3_get_segment A B C i hi
  have hseg_j := append3_get_segment A B C j hj
  constructor
  · intro hd hj2
    have hiA : i < A.length := by
      rcases hseg_i with ⟨h, -⟩ | ⟨-, -, hmem⟩ | ⟨-, hmem⟩
      · exact h
      · exact (bool_tf_absurd hd (hB _ hmem).1).elim
      · exact (bool_tf_absurd hd (hC _ hmem).1).elim
    have hjge : A.length ≤ j := by
      rcases hj2 with hu | hc
      · rcases hseg_j with ⟨-, hmem⟩ | ⟨h, -, -⟩ | ⟨h, -⟩
        · exact (bool_tf_absurd hu (hA _ hmem).1).elim
        · exact h
        · omega
      · rcases hseg_j with ⟨-, hmem⟩ | ⟨-, -, hmem⟩ | ⟨h, -⟩
        · exact (bool_tf_absurd hc (hA _ hmem).2).elim
        · exact (bool_tf_absurd hc (hB _ hmem).2).elim
        · omega
    omega
  · intro hu hc
    have hiAB : i < A.length + B.length := by
      rcases hseg_i with ⟨h, -⟩ | ⟨-, h, -⟩ | ⟨-, hmem⟩
      · omega
      · exact h
      · exact (bool_tf_absurd hu (hC _ hmem).2).elim
    have hjge : A.length + B.length ≤ j := by
      rcases hseg_j with ⟨-, hmem⟩ | ⟨-, -, hmem⟩ | ⟨h, -⟩
      · exact (bool_tf_absurd hc (hA _ hmem).2).elim
      · exact (bool_tf_absurd hc (hB _ hmem).2).elim
      · exact h
    omega

/-- C7: in the remote-call sequence `applyChanges` issues for a change set,
every delete call occurs strictly before every update call and every create
call, and every update call occurs strictly before every create call — the
fixed delete → update → create order. -/
theorem claim7_apply_order (cs : ChangeSet) (i j : Nat)
    (hi : i < (applyChanges cs).length) (hj : j < (applyChanges cs).length) :
    (((applyChanges cs).get ⟨i, hi⟩).isDeleteCall = true →
      (((applyChanges cs).get ⟨j, hj⟩).isUpdateCall = true ∨
        ((applyChanges cs).get ⟨j, hj⟩).isCreateCall = true) → i < j)
    ∧ (((applyChanges cs).get ⟨i, hi⟩).isUpdateCall = true →
        ((applyChanges cs).get ⟨j, hj⟩).isCreateCall = true → i < j) := by
  have hi' : i < ((cs.toDelete.map (fun rule => UdmCall.deleteCall rule.id)
      ++ cs.toUpdate.map (fun p => UdmCall.updateCall p.1.id p.2))
      ++ cs.toCreate.map (fun p => UdmCall.createCall p.2)).length := hi
  have hj' : j < ((cs.toDelete.map (fun rule => UdmCall.deleteCall rule.id)
      ++ cs.toUpdate.map (fun p => UdmCall.updateCall p.1.id p.2))
      ++ cs.toCreate.map (fun p => UdmCall.createCall p.2)).length := hj
  exact append3_call_order _ _ _
    UdmCall.isDeleteCall UdmCall.isUpdateCall UdmCall.isCreateCall
    (by
      intro x hx
      obtain ⟨p, -, hp⟩ := List.mem_map.mp hx
      rw [← hp]
      exact ⟨rfl, rfl⟩)
    (by
      intro x hx
      obtain ⟨p, -, hp⟩ := List.mem_map.mp hx
      rw [← hp]
      exact ⟨rfl, rfl⟩)
    (by
      intro x hx
      obtain ⟨p, -, hp⟩ := List.mem_map.mp hx
      rw [← hp]
      exact ⟨rfl, rfl⟩)
    i j hi' hj'

/-! ## JS `Map` model: lemmas -/

theorem mapGet_eq_some_mem {α : Type} {m : List (Nat × α)} {k : Nat} {v : α}
    (h : mapGet m k = some v) : (k, v) ∈ m := by
  rw [mapGet] at h
  obtain ⟨p, hfind, hv⟩ := Option.map_eq_some'.mp h
  have hpred := List.find?_some hfind
  have hkey : p.1 = k := of_decide_eq_true hpred
  have hmem := List.mem_of_find?_eq_some hfind
  obtain ⟨p1, p2⟩ := p
  simp only at hkey hv
  subst hkey
  subst hv
  exact hmem

theorem replace_key_pred {α : Type} (k : Nat) (v : α) (k' : Nat) :
    ((fun p : Nat × α => decide (p.1 = k')) ∘ (fun p => if p.1 = k then (k, v) else p))
      = fun p : Nat × α => decide ((if p.1 = k then k else p.1) = k') := by
  funext p
  by_cases hp : p.1 = k <;> simp [hp]

theorem mapGet_set_self {α : Type} (m : List (Nat × α)) (k : Nat) (v : α) :
    mapGet (mapSet m k v) k = some v := by
  rw [mapSet]
  split_ifs with hany
  · rw [mapGet, List.find?_map, replace_key_pred k v k]
    have hsame : (fun p : Nat × α => decide ((if p.1 = k then k else p.1) = k))
        = fun p : Nat × α => decide (p.1 = k) := by
      funext p
      by_cases hp : p.1 = k <;> simp [hp]
    rw [hsame]
    have hex : ∃ x, x ∈ m ∧ (decide (x.1 = k)) = true := by
      obtain ⟨x, hx, hxk⟩ := List.any_eq_true.mp hany
      exact ⟨x, hx, hxk⟩
    obtain ⟨p0, hfind⟩ := Option.isSome_iff_exists.mp (List.find?_isSome.mpr hex)
    rw [hfind]
    have hpred := List.find?_some hfind
    have hp0 : p0.1 = k := of_decide_eq_true hpred
    simp [hp0]
  · rw [mapGet, List.find?_append]
    have hnone : m.find? (fun p => decide (p.1 = k)) = none := by
      rw [List.find?_eq_none]
      intro x hx hcon
      exact hany (List.any_eq_true.mpr ⟨x, hx, hcon⟩)
    rw [hnone]
    simp

theorem mapGet_set_ne {α : Type} (m : List (Nat × α)) (k k' : Nat) (v : α)
    (hne : k' ≠ k) : mapGet (mapSet m k v) k' = mapGet m k' := by
  rw [mapSet]
  split_ifs with hany
  · rw [mapGet, List.find?_map, replace_key_pred k v k']
    have hsame : (fun p : Nat × α => decide ((if p.1 = k then k else p.1) = k'))
        = fun p : Nat × α => decide (p.1 = k') := by
      funext p
      by_cases hp : p.1 = k <;> simp [hp]
    rw [hsame]
    cases hfind : m.find? (fun p => decide (p.1 = k')) with
    | none => rw [mapGet, hfind]; rfl
    | some p0 =>
      have hpred := List.find?_some hfind
      have hp0 : p0.1 = k' := of_decide_eq_true hpred
      have hrepl : (if p0.1 = k then (k, v) else p0) = p0 := by
        rw [if_neg]
        rw [hp0]
        exact hne
      rw [mapGet, hfind]
      simp [hrepl]
  · rw [mapGet, List.find?_append]
    have h2 : [(k, v)].find? (fun p => decide (p.1 = k')) = none := by
      rw [List.find?_cons_of_neg _ (by
        simp only [decide_eq_true_eq]
        exact fun hcon => hne hcon.symm)]
      rfl
    rw [h2, mapGet]
    cases m.find? (fun p => decide (p.1 = k')) <;> rfl

theorem mapGet_delete_self {α : Type} (m : List (Nat × α)) (k : Nat) :
    mapGet (mapDelete m k) k = none := by
  rw [mapGet, mapDelete, Option.map_eq_none', List.find?_eq_none]
  intro x hx hcon
  have hpred := List.of_mem_filter hx
  have hxk : x.1 ≠ k := of_decide_eq_true hpred
  exact hxk (of_decide_eq_true hcon)

theorem mapGet_delete_ne {α : Type} (m : List (Nat × α)) (k k' : Nat)
    (hne : k' ≠ k) : mapGet (mapDelete m k) k' = mapGet m k' := by
  induction m with
  | nil => rfl
  | cons p t ih =>
    by_cases hp : p.1 = k
    · have hdrop : mapDelete (p :: t) k = mapDelete t k := by
        simp [mapDelete, List.filter_cons, hp]
      have hskip : mapGet (p :: t) k' = mapGet t k' := by
        rw [mapGet, List.find?_cons_of_neg _ (by
          simp only [decide_eq_true_eq]
          intro hcon
          exact hne (by rw [← hcon, hp]))]
        rfl
      rw [hdrop, hskip]
      exact ih
    · have hkeep : mapDelete (p :: t) k = p :: mapDelete t k := by
        simp [mapDelete, List.filter_cons, hp]
      rw [hkeep]
      by_cases hpk' : p.1 = k'
      · rw [mapGet, mapGet, List.find?_cons_of_pos _ (by simp [hpk']),
          List.find?_cons_of_pos _ (by simp [hpk'])]
      · rw [mapGet, mapGet, List.find?_cons_of_neg _ (by simp [hpk']),
          List.find?_cons_of_neg _ (by simp [hpk'])]
        exact ih

theorem mapDelete_sublist {α : Type} (m : List (Nat × α)) (k : Nat) :
    List.Sublist (mapDelete m k) m :=
  List.filter_sublist m

theorem mapGet_some_of_delete {α : Type} {m : List (Nat × α)} {k k' : Nat} {v : α}
    (h : mapGet (mapDelete m k) k' = some v) : mapGet m k' = some v := by
  by_cases hne : k' = k
  · subst hne
    rw [mapGet_delete_self] at h
    cases h
  · rw [mapGet_delete_ne m k k' hne] at h
    exact h

theorem mapSet_keys_nodup {α : Type} {m : List (Nat × α)} (h : (m.map Prod.fst).Nodup)
    (k : Nat) (v : α) : ((mapSet m k v).map Prod.fst).Nodup := by
  rw [mapSet]
  split_ifs with hany
  · have hkeys : (m.map (fun p => if p.1 = k then (k, v) else p)).map Prod.fst
        = m.map Prod.fst := by
      rw [List.map_map]
      apply List.map_congr_left
      intro p _
      by_cases hp : p.1 = k <;> simp [hp]
    rw [hkeys]
    exact h
  · rw [List.map_append]
    apply List.Nodup.append h (List.nodup_singleton k)
    intro a ha hb
    have hb' : a = k := by simpa using hb
    subst hb'
    obtain ⟨p, hp, hpk⟩ := List.mem_map.mp ha
    exact absurd (List.any_eq_true.mpr ⟨p, hp, by simp [hpk]⟩) hany

theorem mapDelete_keys_nodup {α : Type} {m : List (Nat × α)} (h : (m.map Prod.fst).Nodup)
    (k : Nat) : ((mapDelete m k).map Prod.fst).Nodup :=
  ((mapDelete_sublist m k).map Prod.fst).nodup h

theorem mapGet_eq_some_of_mem_nodup {α : Type} {m : List (Nat × α)}
    (hnodup : (m.map Prod.fst).Nodup) {k : Nat} {v : α} (hmem : (k, v) ∈ m) :
    mapGet m k = some v := by
  induction m with
  | nil => cases hmem
  | cons p t ih =>
    rw [List.map_cons, List.nodup_cons] at hnodup
    rcases List.mem_cons.mp hmem with heq | hmem'
    · rw [← heq, mapGet, List.find?_cons_of_pos _ (by simp)]
      rfl
    · have hk : p.1 ≠ k := by
        intro hcontra
        exact hnodup.1 (hcontra ▸ List.mem_map.mpr ⟨(k, v), hmem', rfl⟩)
      rw [mapGet, List.find?_cons_of_neg _ (by
        simp only [decide_eq_true_eq]
        exact hk)]
      exact ih hnodup.2 hmem'

theorem mapGet_none_of_no_key {α : Type} {m : List (Nat × α)} {k : Nat}
    (h : ∀ p ∈ m, p.1 ≠ k) : mapGet m k = none := by
  rw [mapGet, Option.map_eq_none', List.find?_eq_none]
  intro x hx hcon
  exact h x hx (of_decide_eq_true hcon)

/-- C7 witness: a change set with one deletion, one update and one creation
produces the trace delete, update, create; the theorem applied at indices 0,
1 and 2 confirms the strict ordering. -/
theorem claim7_apply_order_witness :
    0 < 1 ∧ 1 < 2 ∧
      applyChanges
        { toCreate := [(mkAlloc 101 25565 "198.51.100.10", reqFix)],
          toUpdate := [(mkRule "u" "ptero-alloc-102", reqFix)],
          toDelete := [mkRule "d" "ptero-alloc-103"] } =
        [.deleteCall "d", .updateCall "u" reqFix, .createCall reqFix] :=
  ⟨(claim7_apply_order
      { toCreate := [(mkAlloc 101 25565 "198.51.100.10", reqFix)],
        toUpdate := [(mkRule "u" "ptero-alloc-102", reqFix)],
        toDelete := [mkRule "d" "ptero-alloc-103"] } 0 1 (by decide) (by decide)).1
      (by decide) (Or.inl (by decide)),
   (claim7_apply_order
      { toCreate := [(mkAlloc 101 25565 "198.51.100.10", reqFix)],
        toUpdate := [(mkRule "u" "ptero-alloc-102", reqFix)],
        toDelete := [mkRule "d" "ptero-alloc-103"] } 1 2 (by decide) (by decide)).2
      (by decide) (by decide),
   by decide⟩

/-! ## Extraction lemmas (extractRelevantRules) -/

theorem strStartsWith_of_parse {cfg : UdmConfig} {nm : String} {id : Nat}
    (h : parseAllocationId cfg nm = some id) :
    strStartsWith cfg.prefixName nm = true := by
  rw [parseAllocationId] at h
  by_cases hpre : cfg.prefixName.data.isPrefixOf nm.data = true
  · rw [strStartsWith]
    exact hpre
  · rw [if_neg hpre] at h
    cases h

theorem mem_mapSet {α : Type} {m : List (Nat × α)} {k : Nat} {v : α} {p : Nat × α}
    (h : p ∈ mapSet m k v) : p ∈ m ∨ p = (k, v) := by
  rw [mapSet] at h
  split_ifs at h with hany
  · obtain ⟨q, hq, hfq⟩ := List.mem_map.mp h
    by_cases hqk : q.1 = k
    · right
      rw [← hfq, if_pos hqk]
    · left
      rw [← hfq, if_neg hqk]
      exact hq
  · rcases List.mem_append.mp h with h | h
    · left
      exact h
    · right
      simpa using h

theorem extractRelevantRules_append_singleton (cfg : UdmConfig)
    (l : List PortForwardRule) (x : PortForwardRule) :
    extractRelevantRules cfg (l ++ [x]) =
      (if !(strStartsWith cfg.prefixName x.name) then extractRelevantRules cfg l
       else
         match parseAllocationId cfg x.name with
         | none => ((extractRelevantRules cfg l).1,
             (extractRelevantRules cfg l).2 ++ [x.name])
         | some maybeId =>
             (mapSet (extractRelevantRules cfg l).1 maybeId x,
              (extractRelevantRules cfg l).2)) := by
  rw [extractRelevantRules, extractRelevantRules, List.foldl_append]
  rw [List.foldl_cons, List.foldl_nil]

theorem extract_get_eq_last (cfg : UdmConfig) (rules : List PortForwardRule) (id : Nat) :
    mapGet (extractRelevantRules cfg rules).1 id =
      (rules.filter (fun rr => decide (parseAllocationId cfg rr.name = some id))).getLast? := by
  induction rules using List.reverseRecOn with
  | nil => rfl
  | append_singleton l x ih =>
    rw [extractRelevantRules_append_singleton, List.filter_append]
    by_cases hs : strStartsWith cfg.prefixName x.name = true
    · cases hparse : parseAllocationId cfg x.name with
      | none =>
        have hfx : x.name ≠ x.name → False := fun h => h rfl
        have hfilter : [x].filter
            (fun rr => decide (parseAllocationId cfg rr.name = some id)) = [] := by
          simp [List.filter, hparse]
        rw [hfilter, List.append_nil, hs]
        simp only [Bool.not_true, Bool.false_eq_true, if_false, hparse]
        exact ih
      | some k =>
        by_cases hk : k = id
        · subst hk
          have hfilter : [x].filter
              (fun rr => decide (parseAllocationId cfg rr.name = some k)) = [x] := by
            simp [List.filter, hparse]
          rw [hfilter, List.getLast?_concat, hs]
          simp only [Bool.not_true, Bool.false_eq_true, if_false, hparse]
          exact mapGet_set_self _ k x
        · have hfilter : [x].filter
              (fun rr => decide (parseAllocationId cfg rr.name = some id)) = [] := by
            simp [List.filter, hparse, hk]
          rw [hfilter, List.append_nil, hs]
          simp only [Bool.not_true, Bool.false_eq_true, if_false, hparse]
          rw [mapGet_set_ne _ _ _ _ (fun hcon => hk hcon.symm)]
          exact ih
    · have hs' : strStartsWith cfg.prefixName x.name = false :=
        Bool.eq_false_iff.mpr hs
      have hparse : parseAllocationId cfg x.name = none := by
        cases hp : parseAllocationId cfg x.name with
        | none => rfl
        | some k => exact absurd (strStartsWith_of_parse hp) hs
      have hfilter : [x].filter
          (fun rr => decide (parseAllocationId cfg rr.name = some id)) = [] := by
        simp [List.filter, hparse]
      rw [hfilter, List.append_nil, hs']
      simp only [Bool.not_false, if_true]
      exact ih

theorem extract_mem_parse (cfg : UdmConfig) (rules : List PortForwardRule) :
    ∀ p ∈ (extractRelevantRules cfg rules).1,
      parseAllocationId cfg p.2.name = some p.1 ∧ p.2 ∈ rules := by
  induction rules using List.reverseRecOn with
  | nil => intro p hp; cases hp
  | append_singleton l x ih =>
    intro p hp
    rw [extractRelevantRules_append_singleton] at hp
    by_cases hs : strStartsWith cfg.prefixName x.name = true
    · rw [hs] at hp
      simp only [Bool.not_true, Bool.false_eq_true, if_false] at hp
      cases hparse : parseAllocationId cfg x.name with
      | none =>
        rw [hparse] at hp
        obtain ⟨h1, h2⟩ := ih p hp
        exact ⟨h1, List.mem_append_left _ h2⟩
      | some k =>
        rw [hparse] at hp
        rcases mem_mapSet hp with hmem | heq
        · obtain ⟨h1, h2⟩ := ih p hmem
          exact ⟨h1, List.mem_append_left _ h2⟩
        · subst heq
          exact ⟨hparse, List.mem_append_right _ (List.mem_singleton.mpr rfl)⟩
    · have hs' : strStartsWith cfg.prefixName x.name = false :=
        Bool.eq_false_iff.mpr hs
      rw [hs'] at hp
      simp only [Bool.not_false, if_true] at hp
      obtain ⟨h1, h2⟩ := ih p hp
      exact ⟨h1, List.mem_append_left _ h2⟩

theorem extract_keys_nodup (cfg : UdmConfig) (rules : List PortForwardRule) :
    ((extractRelevantRules cfg rules).1.map Prod.fst).Nodup := by
  induction rules using List.reverseRecOn with
  | nil => exact List.nodup_nil
  | append_singleton l x ih =>
    rw [extractRelevantRules_append_singleton]
    by_cases hs : strStartsWith cfg.prefixName x.name = true
    · rw [hs]
      simp only [Bool.not_true, Bool.false_eq_true, if_false]
      cases hparse : parseAllocationId cfg x.name with
      | none => exact ih
      | some k => exact mapSet_keys_nodup ih k x
    · have hs' : strStartsWith cfg.prefixName x.name = false :=
        Bool.eq_false_iff.mpr hs
      rw [hs']
      simp only [Bool.not_false, if_true]
      exact ih

theorem extract_warn_mem (cfg : UdmConfig) (rules : List PortForwardRule)
    (r : PortForwardRule) (hmem : r ∈ rules)
    (hs : strStartsWith cfg.prefixName r.name = true)
    (hparse : parseAllocationId cfg r.name = none) :
    r.name ∈ (extractRelevantRules cfg rules).2 := by
  induction rules using List.reverseRecOn with
  | nil => cases hmem
  | append_singleton l x ih =>
    rw [extractRelevantRules_append_singleton]
    rcases List.mem_append.mp hmem with hml | hmx
    · have hin := ih hml
      by_cases hsx : strStartsWith cfg.prefixName x.name = true
      · rw [hsx]
        simp only [Bool.not_true, Bool.false_eq_true, if_false]
        cases hparsex : parseAllocationId cfg x.name with
        | none => exact List.mem_append_left _ hin
        | some k => exact hin
      · have hs' : strStartsWith cfg.prefixName x.name = false :=
          Bool.eq_false_iff.mpr hsx
        rw [hs']
        simp only [Bool.not_false, if_true]
        exact hin
    · have hrx : r = x := List.mem_singleton.mp hmx
      subst hrx
      rw [hs]
      simp only [Bool.not_true, Bool.false_eq_true, if_false, hparse]
      exact List.mem_append_right _ (List.mem_singleton.mpr rfl)

theorem extract_warn_src (cfg : UdmConfig) (rules : List PortForwardRule) :
    ∀ w ∈ (extractRelevantRules cfg rules).2,
      ∃ r ∈ rules, w = r.name ∧ parseAllocationId cfg r.name = none := by
  induction rules using List.reverseRecOn with
  | nil => intro w hw; cases hw
  | append_singleton l x ih =>
    intro w hw
    rw [extractRelevantRules_append_singleton] at hw
    by_cases hs : strStartsWith cfg.prefixName x.name = true
    · rw [hs] at hw
      simp only [Bool.not_true, Bool.false_eq_true, if_false] at hw
      cases hparse : parseAllocationId cfg x.name with
      | none =>
        rw [hparse] at hw
        rcases List.mem_append.mp hw with hw | hw
        · obtain ⟨r, hr, hwn, hp⟩ := ih w hw
          exact ⟨r, List.mem_append_left _ hr, hwn, hp⟩
        · have hwx : w = x.name := List.mem_singleton.mp hw
          exact ⟨x, List.mem_append_right _ (List.mem_singleton.mpr rfl), hwx, hparse⟩
      | some k =>
        rw [hparse] at hw
        obtain ⟨r, hr, hwn, hp⟩ := ih w hw
        exact ⟨r, List.mem_append_left _ hr, hwn, hp⟩
    · have hs' : strStartsWith cfg.prefixName x.name = false :=
        Bool.eq_false_iff.mpr hs
      rw [hs'] at hw
      simp only [Bool.not_false, if_true] at hw
      obtain ⟨r, hr, hwn, hp⟩ := ih w hw
      exact ⟨r, List.mem_append_left _ hr, hwn, hp⟩

/-! ## Desired-allocation map lemmas -/

theorem desired_mem (allocations : List Allocation) :
    ∀ p ∈ allocations.foldl (fun m a => mapSet m a.id a) [],
      p.2 ∈ allocations ∧ p.1 = p.2.id := by
  induction allocations using List.reverseRecOn with
  | nil => intro p hp; cases hp
  | append_singleton l x ih =>
    intro p hp
    rw [List.foldl_append, List.foldl_cons, List.foldl_nil] at hp
    rcases mem_mapSet hp with hmem | heq
    · obtain ⟨h1, h2⟩ := ih p hmem
      exact ⟨List.mem_append_left _ h1, h2⟩
    · subst heq
      exact ⟨List.mem_append_right _ (List.mem_singleton.mpr rfl), rfl⟩

theorem desired_keys_nodup (allocations : List Allocation) :
    ((allocations.foldl (fun m a => mapSet m a.id a) []).map Prod.fst).Nodup := by
  induction allocations using List.reverseRecOn with
  | nil => exact List.nodup_nil
  | append_singleton l x ih =>
    rw [List.foldl_append, List.foldl_cons, List.foldl_nil]
    exact mapSet_keys_nodup ih x.id x

theorem desired_get_none (allocations : List Allocation) (id : Nat)
    (h : ∀ a ∈ allocations, a.id ≠ id) :
    mapGet (allocations.foldl (fun m a => mapSet m a.id a) []) id = none := by
  apply mapGet_none_of_no_key
  intro p hp
  obtain ⟨hmem, hkey⟩ := desired_mem allocations p hp
  rw [hkey]
  exact h p.2 hmem

theorem desired_get_unique (allocations : List Allocation) (a : Allocation)
    (hmem : a ∈ allocations) (huniq : ∀ b ∈ allocations, b.id = a.id → b = a) :
    mapGet (allocations.foldl (fun m b => mapSet m b.id b) []) a.id = some a := by
  induction allocations using List.reverseRecOn with
  | nil => cases hmem
  | append_singleton l x ih =>
    rw [List.foldl_append, List.foldl_cons, List.foldl_nil]
    rcases List.mem_append.mp hmem with hml | hmx
    · by_cases hx : x.id = a.id
      · have hxa : x = a :=
          huniq x (List.mem_append_right _ (List.mem_singleton.mpr rfl)) hx
        subst hxa
        exact mapGet_set_self _ x.id x
      · rw [mapGet_set_ne _ _ _ _ (fun hcon => hx hcon.symm)]
        exact ih hml (fun b hb hbid => huniq b (List.mem_append_left _ hb) hbid)
    · have hxa : a = x := List.mem_singleton.mp hmx
      subst hxa
      exact mapGet_set_self _ a.id a

/-! ## Reconcile phase 1: step lemmas -/

theorem mapGet_delete_none {α : Type} {m : List (Nat × α)} {id : Nat} (k : Nat)
    (h : mapGet m id = none) : mapGet (mapDelete m k) id = none := by
  by_cases hk : id = k
  · subst hk
    exact mapGet_delete_self m id
  · rw [mapGet_delete_ne m k id hk]
    exact h

theorem step_none {cfg : UdmConfig} {st : ReconcileLoopState} {k : Nat}
    {rule : PortForwardRule} (h : mapGet st.allocations k = none) :
    reconcileExistingStep cfg st (k, rule) =
      { st with toDelete := st.toDelete ++ [rule] } := by
  rw [reconcileExistingStep]
  simp only [h]

theorem step_skip {cfg : UdmConfig} {st : ReconcileLoopState} {k : Nat}
    {rule : PortForwardRule} {a : Allocation} (h : mapGet st.allocations k = some a)
    (hb : buildPortForwardRequest cfg a = none) :
    reconcileExistingStep cfg st (k, rule) =
      { st with warned := st.warned ++ [a.id] } := by
  rw [reconcileExistingStep]
  simp only [h, hb]

theorem step_handle {cfg : UdmConfig} {st : ReconcileLoopState} {k : Nat}
    {rule : PortForwardRule} {a : Allocation} {tc : PortForwardRequest}
    (h : mapGet st.allocations k = some a)
    (hb : buildPortForwardRequest cfg a = some tc) :
    reconcileExistingStep cfg st (k, rule) =
      { st with
        toUpdate :=
          if isRuleOutOfSync rule tc then st.toUpdate ++ [(rule, tc)] else st.toUpdate
        allocations := mapDelete st.allocations k } := by
  rw [reconcileExistingStep]
  simp only [h, hb]

theorem step_toDelete_super (cfg : UdmConfig) (st : ReconcileLoopState)
    (e : Nat × PortForwardRule) {r : PortForwardRule} (h : r ∈ st.toDelete) :
    r ∈ (reconcileExistingStep cfg st e).toDelete := by
  obtain ⟨k, rule⟩ := e
  cases hga : mapGet st.allocations k with
  | none =>
    rw [step_none hga]
    exact List.mem_append_left _ h
  | some a =>
    cases hb : buildPortForwardRequest cfg a with
    | none =>
      rw [step_skip hga hb]
      exact h
    | some tc =>
      rw [step_handle hga hb]
      exact h

theorem step_toUpdate_super (cfg : UdmConfig) (st : ReconcileLoopState)
    (e : Nat × PortForwardRule) {q : PortForwardRule × PortForwardRequest}
    (h : q ∈ st.toUpdate) : q ∈ (reconcileExistingStep cfg st e).toUpdate := by
  obtain ⟨k, rule⟩ := e
  cases hga : mapGet st.allocations k with
  | none =>
    rw [step_none hga]
    exact h
  | some a =>
    cases hb : buildPortForwardRequest cfg a with
    | none =>
      rw [step_skip hga hb]
      exact h
    | some tc =>
      rw [step_handle hga hb]
      by_cases hsync : isRuleOutOfSync rule tc = true
      · simp only [if_pos hsync]
        exact List.mem_append_left _ h
      · simp only [if_neg hsync]
        exact h

theorem step_alloc_none (cfg : UdmConfig) (st : ReconcileLoopState)
    (e : Nat × PortForwardRule) {id : Nat} (h : mapGet st.allocations id = none) :
    mapGet (reconcileExistingStep cfg st e).allocations id = none := by
  obtain ⟨k, rule⟩ := e
  cases hga : mapGet st.allocations k with
  | none =>
    rw [step_none hga]
    exact h
  | some a =>
    cases hb : buildPortForwardRequest cfg a with
    | none =>
      rw [step_skip hga hb]
      exact h
    | some tc =>
      rw [step_handle hga hb]
      exact mapGet_delete_none k h

theorem step_alloc_of_some (cfg : UdmConfig) (st : ReconcileLoopState)
    (e : Nat × PortForwardRule) {k : Nat} {a : Allocation}
    (h : mapGet (reconcileExistingStep cfg st e).allocations k = some a) :
    mapGet st.allocations k = some a := by
  obtain ⟨k0, rule0⟩ := e
  cases hga : mapGet st.allocations k0 with
  | none =>
    rw [step_none hga] at h
    exact h
  | some a0 =>
    cases hb : buildPortForwardRequest cfg a0 with
    | none =>
      rw [step_skip hga hb] at h
      exact h
    | some tc =>
      rw [step_handle hga hb] at h
      exact mapGet_some_of_delete h

/-! ## Reconcile phase 1: fold lemmas -/

theorem phase1_delete_mono (cfg : UdmConfig) (L : List (Nat × PortForwardRule)) :
    ∀ (st : ReconcileLoopState) (r : PortForwardRule), r ∈ st.toDelete →
      r ∈ (L.foldl (reconcileExistingStep cfg) st).toDelete := by
  induction L with
  | nil => intro st r h; exact h
  | cons e t ih =>
    intro st r h
    rw [List.foldl_cons]
    exact ih _ r (step_toDelete_super cfg st e h)

theorem phase1_delete_in (cfg : UdmConfig) (L : List (Nat × PortForwardRule)) :
    ∀ (st : ReconcileLoopState) (id : Nat) (r : PortForwardRule), (id, r) ∈ L →
      mapGet st.allocations id = none →
      r ∈ (L.foldl (reconcileExistingStep cfg) st).toDelete := by
  induction L with
  | nil => intro st id r h _; cases h
  | cons e t ih =>
    intro st id r hmem hnone
    rw [List.foldl_cons]
    rcases List.mem_cons.mp hmem with heq | hmem'
    · subst heq
      apply phase1_delete_mono
      rw [step_none hnone]
      exact List.mem_append_right _ (List.mem_singleton.mpr rfl)
    · exact ih _ id r hmem' (step_alloc_none cfg st e hnone)

theorem phase1_delete_src (cfg : UdmConfig) (L : List (Nat × PortForwardRule)) :
    ∀ (st : ReconcileLoopState) (r : PortForwardRule),
      r ∈ (L.foldl (reconcileExistingStep cfg) st).toDelete →
      r ∈ st.toDelete ∨ ∃ k, (k, r) ∈ L := by
  induction L with
  | nil => intro st r h; exact Or.inl h
  | cons e t ih =>
    intro st r h
    rw [List.foldl_cons] at h
    rcases ih _ r h with h' | ⟨k, hk⟩
    · obtain ⟨k0, rule0⟩ := e
      cases hga : mapGet st.allocations k0 with
      | none =>
        rw [step_none hga] at h'
        rcases List.mem_append.mp h' with h'' | h''
        · exact Or.inl h''
        · have : r = rule0 := List.mem_singleton.mp h''
          subst this
          exact Or.inr ⟨k0, List.mem_cons_self _ _⟩
      | some a =>
        cases hb : buildPortForwardRequest cfg a with
        | none =>
          rw [step_skip hga hb] at h'
          exact Or.inl h'
        | some tc =>
          rw [step_handle hga hb] at h'
          exact Or.inl h'
    · exact Or.inr ⟨k, List.mem_cons_of_mem _ hk⟩

theorem phase1_update_src (cfg : UdmConfig) (L : List (Nat × PortForwardRule)) :
    ∀ (st : ReconcileLoopState) (q : PortForwardRule × PortForwardRequest),
      q ∈ (L.foldl (reconcileExistingStep cfg) st).toUpdate →
      q ∈ st.toUpdate ∨ ∃ k a, (k, q.1) ∈ L ∧ mapGet st.allocations k = some a ∧
        buildPortForwardRequest cfg a = some q.2 ∧ isRuleOutOfSync q.1 q.2 = true := by
  induction L with
  | nil => intro st q h; exact Or.inl h
  | cons e t ih =>
    intro st q h
    rw [List.foldl_cons] at h
    rcases ih _ q h with h' | ⟨k, a, hkL, hget, hb, hsync⟩
    · obtain ⟨k0, rule0⟩ := e
      cases hga : mapGet st.allocations k0 with
      | none =>
        rw [step_none hga] at h'
        exact Or.inl h'
      | some a0 =>
        cases hb0 : buildPortForwardRequest cfg a0 with
        | none =>
          rw [step_skip hga hb0] at h'
          exact Or.inl h'
        | some tc0 =>
          rw [step_handle hga hb0] at h'
          by_cases hsync0 : isRuleOutOfSync rule0 tc0 = true
          · simp only [if_pos hsync0] at h'
            rcases List.mem_append.mp h' with h'' | h''
            · exact Or.inl h''
            · have heq : q = (rule0, tc0) := List.mem_singleton.mp h''
              subst heq
              exact Or.inr ⟨k0, a0, List.mem_cons_self _ _, hga, hb0, hsync0⟩
          · simp only [if_neg hsync0] at h'
            exact Or.inl h'
    · exact Or.inr ⟨k, a, List.mem_cons_of_mem _ hkL,
        step_alloc_of_some cfg st e hget, hb, hsync⟩

theorem phase1_alloc_src (cfg : UdmConfig) (L : List (Nat × PortForwardRule)) :
    ∀ (st : ReconcileLoopState) (p : Nat × Allocation),
      p ∈ (L.foldl (reconcileExistingStep cfg) st).allocations → p ∈ st.allocations := by
  induction L with
  | nil => intro st p h; exact h
  | cons e t ih =>
    intro st p h
    rw [List.foldl_cons] at h
    have h' := ih _ p h
    obtain ⟨k0, rule0⟩ := e
    cases hga : mapGet st.allocations k0 with
    | none =>
      rw [step_none hga] at h'
      exact h'
    | some a =>
      cases hb : buildPortForwardRequest cfg a with
      | none =>
        rw [step_skip hga hb] at h'
        exact h'
      | some tc =>
        rw [step_handle hga hb] at h'
        exact (mapDelete_sublist st.allocations k0).subset h'

/-! ## Reconcile phase 2: fold lemmas -/

theorem step2_warn {cfg : UdmConfig}
    {st2 : List (Allocation × PortForwardRequest) × List Nat} {k : Nat} {a : Allocation}
    (hb : buildPortForwardRequest cfg a = none) :
    reconcileCreateStep cfg st2 (k, a) = (st2.1, st2.2 ++ [a.id]) := by
  rw [reconcileCreateStep]
  simp only [hb]

theorem step2_create {cfg : UdmConfig}
    {st2 : List (Allocation × PortForwardRequest) × List Nat} {k : Nat} {a : Allocation}
    {tc : PortForwardRequest} (hb : buildPortForwardRequest cfg a = some tc) :
    reconcileCreateStep cfg st2 (k, a) = (st2.1 ++ [(a, tc)], st2.2) := by
  rw [reconcileCreateStep]
  simp only [hb]

theorem phase2_create_src (cfg : UdmConfig) (M : List (Nat × Allocation)) :
    ∀ (st2 : List (Allocation × PortForwardRequest) × List Nat)
      (q : Allocation × PortForwardRequest),
      q ∈ (M.foldl (reconcileCreateStep cfg) st2).1 →
      q ∈ st2.1 ∨ ∃ k, (k, q.1) ∈ M ∧ buildPortForwardRequest cfg q.1 = some q.2 := by
  induction M with
  | nil => intro st2 q h; exact Or.inl h
  | cons e t ih =>
    intro st2 q h
    rw [List.foldl_cons] at h
    rcases ih _ q h with h' | ⟨k, hk, hb⟩
    · obtain ⟨k0, a0⟩ := e
      cases hb0 : buildPortForwardRequest cfg a0 with
      | none =>
        rw [step2_warn hb0] at h'
        exact Or.inl h'
      | some tc0 =>
        rw [step2_create hb0] at h'
        rcases List.mem_append.mp h' with h'' | h''
        · exact Or.inl h''
        · have heq : q = (a0, tc0) := List.mem_singleton.mp h''
          subst heq
          exact Or.inr ⟨k0, List.mem_cons_self _ _, hb0⟩
    · exact Or.inr ⟨k, List.mem_cons_of_mem _ hk, hb⟩

theorem buildPortForwardRequest_name {cfg : UdmConfig} {a : Allocation}
    {req : PortForwardRequest} (h : buildPortForwardRequest cfg a = some req) :
    req.name = buildRuleName cfg a.id := by
  rw [buildPortForwardRequest] at h
  cases hres : resolveTargetIp cfg a with
  | none =>
    simp only [hres] at h
    cases h
  | some t =>
    simp only [hres] at h
    split_ifs at h
    rw [← Option.some_inj.mp h]

/-! ## Deletion selection (C6) and duplicate handling (C10) -/

/-- C6 counterexample: two fetched rules share the managed name
`ptero-alloc-1` (allocation id 1, which has no allocation).  The first rule is
addressable and managed, yet the cycle's delete set contains only the second
rule — `Map.set` keyed both under id 1 and kept the later one — refuting the
claim that *every* such rule is placed in the delete set. -/
theorem claim6_counterexample :
    parseAllocationId cfgFix "ptero-alloc-1" = some 1
    ∧ (runCycleChanges cfgFix []
        [mkRule "a" "ptero-alloc-1", mkRule "b" "ptero-alloc-1"]).1.toDelete
        = [mkRule "b" "ptero-alloc-1"]
    ∧ mkRule "a" "ptero-alloc-1" ∉ (runCycleChanges cfgFix []
        [mkRule "a" "ptero-alloc-1", mkRule "b" "ptero-alloc-1"]).1.toDelete := by
  refine ⟨by decide, by decide, by decide⟩

/-- C6 (amended): for every cycle input, the rule *retained for its parsed
allocation id* — the last addressable managed rule with that id in fetched
order; in particular the unique such rule when no duplicate names occur —
whose id has no corresponding allocation is placed in the delete set, appears
in no update entry, and no creation is emitted for that id. -/
theorem claim6_delete_selection (cfg : UdmConfig) (allocations : List Allocation)
    (rules : List PortForwardRule) (id : Nat) (r : PortForwardRule)
    (hlast : (rules.filter
      (fun rr => decide (parseAllocationId cfg rr.name = some id))).getLast? = some r)
    (hnone : ∀ a ∈ allocations, a.id ≠ id) :
    r ∈ (runCycleChanges cfg allocations rules).1.toDelete
    ∧ (∀ q ∈ (runCycleChanges cfg allocations rules).1.toUpdate, q.1 ≠ r)
    ∧ (∀ q ∈ (runCycleChanges cfg allocations rules).1.toCreate, q.1.id ≠ id) := by
  have hparse_r : parseAllocationId cfg r.name = some id := by
    have hmemfil := List.mem_of_mem_getLast? (Option.mem_def.mpr hlast)
    exact of_decide_eq_true (List.mem_filter.mp hmemfil).2
  have hextract : mapGet (extractRelevantRules cfg rules).1 id = some r := by
    rw [extract_get_eq_last]
    exact hlast
  have hmemmap : (id, r) ∈ (extractRelevantRules cfg rules).1 :=
    mapGet_eq_some_mem hextract
  have hdesired :
      mapGet (allocations.foldl (fun m a => mapSet m a.id a) []) id = none :=
    desired_get_none allocations id hnone
  refine ⟨?_, ?_, ?_⟩
  · exact phase1_delete_in cfg (extractRelevantRules cfg rules).1
      { toDelete := [], toUpdate := [], warned := [],
        allocations := allocations.foldl (fun m a => mapSet m a.id a) [] }
      id r hmemmap hdesired
  · intro q hq heqq
    rcases phase1_update_src cfg (extractRelevantRules cfg rules).1
        { toDelete := [], toUpdate := [], warned := [],
          allocations := allocations.foldl (fun m a => mapSet m a.id a) [] }
        q hq with h | ⟨k, a, hkL, hget, -, -⟩
    · cases h
    · have hpq := (extract_mem_parse cfg rules _ hkL).1
      rw [heqq] at hpq
      have hk : k = id := Option.some_inj.mp (hpq.symm.trans hparse_r)
      subst hk
      rw [hdesired] at hget
      cases hget
  · intro q hq heq
    rcases phase2_create_src cfg
        ((extractRelevantRules cfg rules).1.foldl (reconcileExistingStep cfg)
          { toDelete := [], toUpdate := [], warned := [],
            allocations := allocations.foldl (fun m a => mapSet m a.id a) [] }).allocations
        ([], []) q hq with h | ⟨k, hkM, -⟩
    · cases h
    · have hmem_des := phase1_alloc_src cfg (extractRelevantRules cfg rules).1
        { toDelete := [], toUpdate := [], warned := [],
          allocations := allocations.foldl (fun m a => mapSet m a.id a) [] }
        (k, q.1) hkM
      obtain ⟨hma, -⟩ := desired_mem allocations _ hmem_des
      exact hnone q.1 hma heq

/-- C6 witness: one managed rule `ptero-alloc-1` with no allocation is deleted
and appears in no update, and no creation targets id 1. -/
theorem claim6_delete_selection_witness :
    mkRule "b" "ptero-alloc-1" ∈
      (runCycleChanges cfgFix [] [mkRule "b" "ptero-alloc-1"]).1.toDelete
    ∧ (∀ q ∈ (runCycleChanges cfgFix [] [mkRule "b" "ptero-alloc-1"]).1.toUpdate,
        q.1 ≠ mkRule "b" "ptero-alloc-1")
    ∧ (∀ q ∈ (runCycleChanges cfgFix [] [mkRule "b" "ptero-alloc-1"]).1.toCreate,
        q.1.id ≠ 1) :=
  claim6_delete_selection cfgFix [] [mkRule "b" "ptero-alloc-1"] 1
    (mkRule "b" "ptero-alloc-1") (by decide) (by decide)

/-- C9: a fetched rule whose name carries the managed prefix but whose
remainder does not parse as a non-negative integer is warned about (its name
is in the unparseable-name warning list) and is excluded from every change
set: it is in no delete entry, no update entry, and every created request
carries a (parseable) name different from its name. -/
theorem claim9_unparseable_skipped (cfg : UdmConfig) (allocations : List Allocation)
    (rules : List PortForwardRule) (r : PortForwardRule) (hmem : r ∈ rules)
    (hpre : strStartsWith cfg.prefixName r.name = true)
    (hparse : parseAllocationId cfg r.name = none) :
    r.name ∈ (runCycleChanges cfg allocations rules).2.1
    ∧ r ∉ (runCycleChanges cfg allocations rules).1.toDelete
    ∧ (∀ q ∈ (runCycleChanges cfg allocations rules).1.toUpdate, q.1 ≠ r)
    ∧ (∀ q ∈ (runCycleChanges cfg allocations rules).1.toCreate, q.2.name ≠ r.name) := by
  refine ⟨extract_warn_mem cfg rules r hmem hpre hparse, ?_, ?_, ?_⟩
  · intro hdel
    rcases phase1_delete_src cfg (extractRelevantRules cfg rules).1
        { toDelete := [], toUpdate := [], warned := [],
          allocations := allocations.foldl (fun m a => mapSet m a.id a) [] }
        r hdel with h | ⟨k, hk⟩
    · cases h
    · have hpq := (extract_mem_parse cfg rules _ hk).1
      rw [hparse] at hpq
      cases hpq
  · intro q hq heqq
    rcases phase1_update_src cfg (extractRelevantRules cfg rules).1
        { toDelete := [], toUpdate := [], warned := [],
          allocations := allocations.foldl (fun m a => mapSet m a.id a) [] }
        q hq with h | ⟨k, a, hkL, -, -, -⟩
    · cases h
    · have hpq := (extract_mem_parse cfg rules _ hkL).1
      rw [heqq, hparse] at hpq
      cases hpq
  · intro q hq heq
    rcases phase2_create_src cfg
        ((extractRelevantRules cfg rules).1.foldl (reconcileExistingStep cfg)
          { toDelete := [], toUpdate := [], warned := [],
            allocations := allocations.foldl (fun m a => mapSet m a.id a) [] }).allocations
        ([], []) q hq with h | ⟨k, -, hb⟩
    · cases h
    · have hname : q.2.name = buildRuleName cfg q.1.id := buildPortForwardRequest_name hb
      have hroundtrip := parseAllocationId_buildRuleName cfg q.1.id
      rw [← hname, heq, hparse] at hroundtrip
      cases hroundtrip

/-- C9 witness: a prefixed but unparseable rule name is warned and excluded
from every change set. -/
theorem claim9_unparseable_skipped_witness :
    ("ptero-alloc-xyz" : String) ∈
      (runCycleChanges cfgFix [] [mkRule "u" "ptero-alloc-xyz"]).2.1
    ∧ mkRule "u" "ptero-alloc-xyz" ∉
        (runCycleChanges cfgFix [] [mkRule "u" "ptero-alloc-xyz"]).1.toDelete
    ∧ (∀ q ∈ (runCycleChanges cfgFix [] [mkRule "u" "ptero-alloc-xyz"]).1.toUpdate,
        q.1 ≠ mkRule "u" "ptero-alloc-xyz")
    ∧ (∀ q ∈ (runCycleChanges cfgFix [] [mkRule "u" "ptero-alloc-xyz"]).1.toCreate,
        q.2.name ≠ "ptero-alloc-xyz") := by
  have h := claim9_unparseable_skipped cfgFix [] [mkRule "u" "ptero-alloc-xyz"]
    (mkRule "u" "ptero-alloc-xyz") (by decide) (by decide) (by decide)
  exact h

/-- C10: when several addressable managed rules parse to the same allocation
id, only the one occurring last in fetched order is retained in the
relevant-rule map; every earlier duplicate is silently dropped: it is in no
delete entry, no update entry, and its name is not warned about — even though
it is managed and addressable. -/
theorem claim10_duplicate_names (cfg : UdmConfig) (allocations : List Allocation)
    (rules : List PortForwardRule) (id : Nat) (r r' : PortForwardRule)
    (hlast : (rules.filter
      (fun rr => decide (parseAllocationId cfg rr.name = some id))).getLast? = some r)
    (hparse' : parseAllocationId cfg r'.name = some id) (hne : r' ≠ r) :
    mapGet (extractRelevantRules cfg rules).1 id = some r
    ∧ r' ∉ (runCycleChanges cfg allocations rules).1.toDelete
    ∧ (∀ q ∈ (runCycleChanges cfg allocations rules).1.toUpdate, q.1 ≠ r')
    ∧ r'.name ∉ (runCycleChanges cfg allocations rules).2.1 := by
  have hextract : mapGet (extractRelevantRules cfg rules).1 id = some r := by
    rw [extract_get_eq_last]
    exact hlast
  have honly : ∀ k, (k, r') ∈ (extractRelevantRules cfg rules).1 → False := by
    intro k hk
    have hpq := (extract_mem_parse cfg rules _ hk).1
    have hkid : k = id := Option.some_inj.mp (hpq.symm.trans hparse')
    subst hkid
    have := mapGet_eq_some_of_mem_nodup (extract_keys_nodup cfg rules) hk
    rw [hextract] at this
    exact hne (Option.some_inj.mp this.symm)
  refine ⟨hextract, ?_, ?_, ?_⟩
  · intro hdel
    rcases phase1_delete_src cfg (extractRelevantRules cfg rules).1
        { toDelete := [], toUpdate := [], warned := [],
          allocations := allocations.foldl (fun m a => mapSet m a.id a) [] }
        r' hdel with h | ⟨k, hk⟩
    · cases h
    · exact honly k hk
  · intro q hq heqq
    rcases phase1_update_src cfg (extractRelevantRules cfg rules).1
        { toDelete := [], toUpdate := [], warned := [],
          allocations := allocations.foldl (fun m a => mapSet m a.id a) [] }
        q hq with h | ⟨k, a, hkL, -, -, -⟩
    · cases h
    · rw [heqq] at hkL
      exact honly k hkL
  · intro hwarn
    obtain ⟨rw_, -, hname, hpnone⟩ := extract_warn_src cfg rules r'.name hwarn
    rw [← hname] at hpnone
    rw [hpnone] at hparse'
    cases hparse'

/-- C10 witness: with two rules named `ptero-alloc-1`, the later one is the
retained entry and the earlier one is in no change set and unwarned. -/
theorem claim10_duplicate_names_witness :
    mapGet (extractRelevantRules cfgFix
        [mkRule "a" "ptero-alloc-1", mkRule "b" "ptero-alloc-1"]).1 1
      = some (mkRule "b" "ptero-alloc-1")
    ∧ mkRule "a" "ptero-alloc-1" ∉ (runCycleChanges cfgFix []
        [mkRule "a" "ptero-alloc-1", mkRule "b" "ptero-alloc-1"]).1.toDelete
    ∧ (∀ q ∈ (runCycleChanges cfgFix []
        [mkRule "a" "ptero-alloc-1", mkRule "b" "ptero-alloc-1"]).1.toUpdate,
        q.1 ≠ mkRule "a" "ptero-alloc-1")
    ∧ ("ptero-alloc-1" : String) ∉ (runCycleChanges cfgFix []
        [mkRule "a" "ptero-alloc-1", mkRule "b" "ptero-alloc-1"]).2.1 :=
  claim10_duplicate_names cfgFix []
    [mkRule "a" "ptero-alloc-1", mkRule "b" "ptero-alloc-1"] 1
    (mkRule "b" "ptero-alloc-1") (mkRule "a" "ptero-alloc-1")
    (by decide) (by decide) (by decide)

/-! ## Unresolved target IP (C8): counting lemmas -/

theorem mapGet_isSome_any {α : Type} (m : List (Nat × α)) (k : Nat) :
    (mapGet m k).isSome = m.any (fun p => p.1 = k) := by
  rw [mapGet]
  rcases hfind : m.find? (fun p => decide (p.1 = k)) with _ | p
  · rw [hfind]
    simp only [Option.map_none', Option.isSome_none]
    have hall := List.find?_eq_none.mp hfind
    symm
    rw [Bool.eq_false_iff]
    intro hany
    obtain ⟨x, hx, hxk⟩ := List.any_eq_true.mp hany
    exact hall x hx hxk
  · rw [hfind]
    simp only [Option.map_some', Option.isSome_some]
    symm
    rw [List.any_eq_true]
    have hpred := List.find?_some hfind
    exact ⟨p, List.mem_of_find?_eq_some hfind, hpred⟩

theorem phase1_alloc_vals (cfg : UdmConfig) (L : List (Nat × PortForwardRule))
    (st : ReconcileLoopState) (h : ∀ p ∈ st.allocations, p.2.id = p.1) :
    ∀ p ∈ (L.foldl (reconcileExistingStep cfg) st).allocations, p.2.id = p.1 :=
  fun p hp => h p (phase1_alloc_src cfg L st p hp)

theorem step_alloc_keys_nodup (cfg : UdmConfig) (st : ReconcileLoopState)
    (e : Nat × PortForwardRule) (h : (st.allocations.map Prod.fst).Nodup) :
    ((reconcileExistingStep cfg st e).allocations.map Prod.fst).Nodup := by
  obtain ⟨k, rule⟩ := e
  cases hga : mapGet st.allocations k with
  | none =>
    rw [step_none hga]
    exact h
  | some a =>
    cases hb : buildPortForwardRequest cfg a with
    | none =>
      rw [step_skip hga hb]
      exact h
    | some tc =>
      rw [step_handle hga hb]
      exact mapDelete_keys_nodup h k

theorem phase1_alloc_keys_nodup (cfg : UdmConfig) (L : List (Nat × PortForwardRule)) :
    ∀ st : ReconcileLoopState, (st.allocations.map Prod.fst).Nodup →
      (((L.foldl (reconcileExistingStep cfg) st).allocations.map Prod.fst)).Nodup := by
  induction L with
  | nil => intro st h; exact h
  | cons e t ih =>
    intro st h
    rw [List.foldl_cons]
    exact ih _ (step_alloc_keys_nodup cfg st e h)

theorem phase1_unresolved (cfg : UdmConfig) (L : List (Nat × PortForwardRule)) :
    ∀ (st : ReconcileLoopState) (a : Allocation),
      (∀ p ∈ st.allocations, p.2.id = p.1) →
      (L.map Prod.fst).Nodup →
      (∀ p ∈ L, parseAllocationId cfg p.2.name = some p.1) →
      mapGet st.allocations a.id = some a →
      buildPortForwardRequest cfg a = none →
      mapGet (L.foldl (reconcileExistingStep cfg) st).allocations a.id = some a
      ∧ List.count a.id (L.foldl (reconcileExistingStep cfg) st).warned =
          List.count a.id st.warned + (if L.any (fun p => p.1 = a.id) then 1 else 0)
      ∧ (∀ rr ∈ (L.foldl (reconcileExistingStep cfg) st).toDelete,
          rr ∈ st.toDelete ∨ parseAllocationId cfg rr.name ≠ some a.id)
      ∧ (∀ q ∈ (L.foldl (reconcileExistingStep cfg) st).toUpdate,
          q ∈ st.toUpdate ∨ parseAllocationId cfg q.1.name ≠ some a.id) := by
  induction L with
  | nil =>
    intro st a hvals hnodup hparse hget hbuild
    exact ⟨hget, by simp, fun rr hrr => Or.inl hrr, fun q hq => Or.inl hq⟩
  | cons e t ih =>
    intro st a hvals hnodup hparse hget hbuild
    obtain ⟨k0, rule0⟩ := e
    rw [List.map_cons, List.nodup_cons] at hnodup
    have hparse0 : parseAllocationId cfg rule0.name = some k0 :=
      hparse (k0, rule0) (List.mem_cons_self _ _)
    have hparset : ∀ p ∈ t, parseAllocationId cfg p.2.name = some p.1 :=
      fun p hp => hparse p (List.mem_cons_of_mem _ hp)
    rw [List.foldl_cons]
    cases hga : mapGet st.allocations k0 with
    | none =>
      have hk0 : k0 ≠ a.id := by
        intro hcon
        rw [hcon, hget] at hga
        cases hga
      rw [step_none hga]
      obtain ⟨g1, g2, g3, g4⟩ := ih { st with toDelete := st.toDelete ++ [rule0] } a
        hvals hnodup.2 hparset hget hbuild
      have g2' : List.count a.id
          (t.foldl (reconcileExistingStep cfg)
            { st with toDelete := st.toDelete ++ [rule0] }).warned =
          List.count a.id st.warned +
            (if t.any (fun p => p.1 = a.id) then 1 else 0) := g2
      have g3' : ∀ rr ∈ (t.foldl (reconcileExistingStep cfg)
          { st with toDelete := st.toDelete ++ [rule0] }).toDelete,
          rr ∈ st.toDelete ++ [rule0] ∨ parseAllocationId cfg rr.name ≠ some a.id := g3
      refine ⟨g1, ?_, ?_, g4⟩
      · rw [g2', List.any_cons]
        have hd : (decide (k0 = a.id)) = false := by simp [hk0]
        simp only [hd, Bool.false_or]
      · intro rr hrr
        rcases g3' rr hrr with hin | hne
        · rcases List.mem_append.mp hin with hin' | hin'
          · exact Or.inl hin'
          · have hrr0 : rr = rule0 := List.mem_singleton.mp hin'
            subst hrr0
            refine Or.inr ?_
            rw [hparse0]
            intro hcon
            exact hk0 (Option.some_inj.mp hcon)
        · exact Or.inr hne
    | some a0 =>
      have ha0 : a0.id = k0 := hvals (k0, a0) (mapGet_eq_some_mem hga)
      cases hb0 : buildPortForwardRequest cfg a0 with
      | none =>
        rw [step_skip hga hb0]
        obtain ⟨g1, g2, g3, g4⟩ := ih { st with warned := st.warned ++ [a0.id] } a
          hvals hnodup.2 hparset hget hbuild
        have g2' : List.count a.id
            (t.foldl (reconcileExistingStep cfg)
              { st with warned := st.warned ++ [a0.id] }).warned =
            List.count a.id (st.warned ++ [a0.id]) +
              (if t.any (fun p => p.1 = a.id) then 1 else 0) := g2
        refine ⟨g1, ?_, g3, g4⟩
        rw [g2', List.count_append, List.any_cons]
        by_cases hk0 : k0 = a.id
        · have hanyt : t.any (fun p => p.1 = a.id) = false := by
            rw [Bool.eq_false_iff]
            intro hany
            obtain ⟨x, hx, hxk⟩ := List.any_eq_true.mp hany
            apply hnodup.1
            have hx1 : x.1 = a.id := of_decide_eq_true hxk
            rw [← hx1] at hk0
            rw [hk0]
            exact List.mem_map.mpr ⟨x, hx, rfl⟩
          have hcnt1 : List.count a.id [a0.id] = 1 := by
            rw [ha0, hk0]
            simp
          have hd : (decide (k0 = a.id)) = true := decide_eq_true hk0
          rw [hcnt1, hanyt]
          simp only [hd, Bool.true_or]
          simp
        · have hcnt0 : List.count a.id [a0.id] = 0 := by
            rw [List.count_eq_zero, ha0]
            simp only [List.mem_singleton]
            exact fun hcon => hk0 hcon.symm
          have hd : (decide (k0 = a.id)) = false := by simp [hk0]
          rw [hcnt0]
          simp only [hd, Bool.false_or]
          omega
      | some tc0 =>
        have hk0 : k0 ≠ a.id := by
          intro hcon
          rw [hcon, hget] at hga
          have ha0a : a = a0 := Option.some_inj.mp hga
          rw [← ha0a, hbuild] at hb0
          cases hb0
        rw [step_handle hga hb0]
        obtain ⟨g1, g2, g3, g4⟩ := ih
          { st with
            toUpdate :=
              if isRuleOutOfSync rule0 tc0 then st.toUpdate ++ [(rule0, tc0)]
              else st.toUpdate
            allocations := mapDelete st.allocations k0 } a
          (fun p hp => hvals p ((mapDelete_sublist st.allocations k0).subset hp))
          hnodup.2 hparset
          (by
            have hswap : a.id ≠ k0 := fun hcon => hk0 hcon.symm
            rw [mapGet_delete_ne st.allocations k0 a.id hswap]
            exact hget)
          hbuild
        have g2' : List.count a.id
            (t.foldl (reconcileExistingStep cfg)
              { st with
                toUpdate :=
                  if isRuleOutOfSync rule0 tc0 then st.toUpdate ++ [(rule0, tc0)]
                  else st.toUpdate
                allocations := mapDelete st.allocations k0 }).warned =
            List.count a.id st.warned +
              (if t.any (fun p => p.1 = a.id) then 1 else 0) := g2
        have g4' : ∀ q ∈ (t.foldl (reconcileExistingStep cfg)
            { st with
              toUpdate :=
                if isRuleOutOfSync rule0 tc0 then st.toUpdate ++ [(rule0, tc0)]
                else st.toUpdate
              allocations := mapDelete st.allocations k0 }).toUpdate,
            q ∈ (if isRuleOutOfSync rule0 tc0 then st.toUpdate ++ [(rule0, tc0)]
              else st.toUpdate) ∨ parseAllocationId cfg q.1.name ≠ some a.id := g4
        refine ⟨g1, ?_, g3, ?_⟩
        · rw [g2', List.any_cons]
          have hd : (decide (k0 = a.id)) = false := by simp [hk0]
          simp only [hd, Bool.false_or]
        · intro q hq
          rcases g4' q hq with hin | hne
          · by_cases hsync : isRuleOutOfSync rule0 tc0 = true
            · rw [if_pos hsync] at hin
              rcases List.mem_append.mp hin with h | h
              · exact Or.inl h
              · have hq0 : q = (rule0, tc0) := List.mem_singleton.mp h
                subst hq0
                refine Or.inr ?_
                rw [hparse0]
                intro hcon
                exact hk0 (Option.some_inj.mp hcon)
            · rw [if_neg hsync] at hin
              exact Or.inl hin
          · exact Or.inr hne

theorem phase2_nokey (cfg : UdmConfig) (M : List (Nat × Allocation)) :
    ∀ (st2 : List (Allocation × PortForwardRequest) × List Nat) (targetId : Nat),
      (∀ p ∈ M, p.2.id = p.1) →
      (∀ p ∈ M, p.1 ≠ targetId) →
      List.count targetId (M.foldl (reconcileCreateStep cfg) st2).2 =
        List.count targetId st2.2
      ∧ (∀ q ∈ (M.foldl (reconcileCreateStep cfg) st2).1,
          q ∈ st2.1 ∨ q.1.id ≠ targetId) := by
  induction M with
  | nil => intro st2 targetId _ _; exact ⟨rfl, fun q hq => Or.inl hq⟩
  | cons e t ih =>
    intro st2 targetId hvals hkeys
    obtain ⟨k0, a0⟩ := e
    have ha0 : a0.id = k0 := hvals (k0, a0) (List.mem_cons_self _ _)
    have hk0 : k0 ≠ targetId := hkeys (k0, a0) (List.mem_cons_self _ _)
    have hvalst : ∀ p ∈ t, p.2.id = p.1 := fun p hp => hvals p (List.mem_cons_of_mem _ hp)
    have hkeyst : ∀ p ∈ t, p.1 ≠ targetId := fun p hp => hkeys p (List.mem_cons_of_mem _ hp)
    rw [List.foldl_cons]
    cases hb0 : buildPortForwardRequest cfg a0 with
    | none =>
      rw [step2_warn hb0]
      obtain ⟨g1, g2⟩ := ih (st2.1, st2.2 ++ [a0.id]) targetId hvalst hkeyst
      refine ⟨?_, ?_⟩
      · rw [g1, List.count_append]
        have hcnt0 : List.count targetId [a0.id] = 0 := by
          rw [List.count_eq_zero, ha0]
          simp only [List.mem_singleton]
          exact fun hcon => hk0 hcon.symm
        rw [hcnt0]
        omega
      · intro q hq
        exact g2 q hq
    | some tc0 =>
      rw [step2_create hb0]
      obtain ⟨g1, g2⟩ := ih (st2.1 ++ [(a0, tc0)], st2.2) targetId hvalst hkeyst
      refine ⟨g1, ?_⟩
      intro q hq
      rcases g2 q hq with hin | hne
      · rcases List.mem_append.mp hin with h | h
        · exact Or.inl h
        · have hq0 : q = (a0, tc0) := List.mem_singleton.mp h
          subst hq0
          refine Or.inr ?_
          rw [ha0]
          exact hk0
      · exact Or.inr hne

theorem phase2_unresolved (cfg : UdmConfig) (M : List (Nat × Allocation)) :
    ∀ (st2 : List (Allocation × PortForwardRequest) × List Nat) (a : Allocation),
      (∀ p ∈ M, p.2.id = p.1) →
      (M.map Prod.fst).Nodup →
      (a.id, a) ∈ M →
      buildPortForwardRequest cfg a = none →
      List.count a.id (M.foldl (reconcileCreateStep cfg) st2).2 =
        List.count a.id st2.2 + 1
      ∧ (∀ q ∈ (M.foldl (reconcileCreateStep cfg) st2).1,
          q ∈ st2.1 ∨ q.1.id ≠ a.id) := by
  induction M with
  | nil => intro st2 a _ _ hmem _; cases hmem
  | cons e t ih =>
    intro st2 a hvals hnodup hmem hbuild
    obtain ⟨k0, a0⟩ := e
    rw [List.map_cons, List.nodup_cons] at hnodup
    have ha0 : a0.id = k0 := hvals (k0, a0) (List.mem_cons_self _ _)
    have hvalst : ∀ p ∈ t, p.2.id = p.1 := fun p hp => hvals p (List.mem_cons_of_mem _ hp)
    rw [List.foldl_cons]
    rcases List.mem_cons.mp hmem with heq | htail
    · have hk0 : k0 = a.id := (congrArg Prod.fst heq).symm
      have ha0a : a0 = a := (congrArg Prod.snd heq).symm
      have hbuild0 : buildPortForwardRequest cfg a0 = none := by
        rw [ha0a]
        exact hbuild
      rw [step2_warn hbuild0]
      have hkeyst : ∀ p ∈ t, p.1 ≠ a.id := by
        intro p hp hcon
        apply hnodup.1
        rw [hk0, ← hcon]
        exact List.mem_map.mpr ⟨p, hp, rfl⟩
      obtain ⟨g1, g2⟩ := phase2_nokey cfg t (st2.1, st2.2 ++ [a0.id]) a.id hvalst hkeyst
      refine ⟨?_, ?_⟩
      · rw [g1, List.count_append]
        have hcnt1 : List.count a.id [a0.id] = 1 := by
          rw [ha0a]
          simp
        rw [hcnt1]
      · intro q hq
        exact g2 q hq
    · have hk0 : k0 ≠ a.id := by
        intro hcon
        apply hnodup.1
        rw [hcon]
        exact List.mem_map.mpr ⟨(a.id, a), htail, rfl⟩
      cases hb0 : buildPortForwardRequest cfg a0 with
      | none =>
        rw [step2_warn hb0]
        obtain ⟨g1, g2⟩ := ih (st2.1, st2.2 ++ [a0.id]) a hvalst hnodup.2 htail hbuild
        refine ⟨?_, fun q hq => g2 q hq⟩
        rw [g1, List.count_append]
        have hcnt0 : List.count a.id [a0.id] = 0 := by
          rw [List.count_eq_zero, ha0]
          simp only [List.mem_singleton]
          exact fun hcon => hk0 hcon.symm
        rw [hcnt0]
      | some tc0 =>
        rw [step2_create hb0]
        obtain ⟨g1, g2⟩ := ih (st2.1 ++ [(a0, tc0)], st2.2) a hvalst hnodup.2 htail hbuild
        refine ⟨g1, ?_⟩
        intro q hq
        rcases g2 q hq with hin | hne
        · rcases List.mem_append.mp hin with h | h
          · exact Or.inl h
          · have hq0 : q = (a0, tc0) := List.mem_singleton.mp h
            subst hq0
            refine Or.inr ?_
            rw [ha0]
            exact hk0
        · exact Or.inr hne

/-- C8 counterexample: allocation 999 has no IP-map entry and no default
target IP, and an existing managed rule `ptero-alloc-999`.  The cycle performs
no action — but logs the warning for allocation 999 *twice* (once in the
update phase, once in the creation phase, because the skip leaves the
allocation in the pool), refuting "exactly one warning is logged for it". -/
theorem claim8_counterexample :
    (runCycleChanges cfgNoMap [mkAlloc 999 25565 "203.0.113.5"]
        [mkRule "rule-999" "ptero-alloc-999"]).1.toDelete = []
    ∧ (runCycleChanges cfgNoMap [mkAlloc 999 25565 "203.0.113.5"]
        [mkRule "rule-999" "ptero-alloc-999"]).1.toUpdate = []
    ∧ (runCycleChanges cfgNoMap [mkAlloc 999 25565 "203.0.113.5"]
        [mkRule "rule-999" "ptero-alloc-999"]).1.toCreate = []
    ∧ (runCycleChanges cfgNoMap [mkAlloc 999 25565 "203.0.113.5"]
        [mkRule "rule-999" "ptero-alloc-999"]).2.2 = [999, 999]
    ∧ ¬(List.count 999 (runCycleChanges cfgNoMap [mkAlloc 999 25565 "203.0.113.5"]
        [mkRule "rule-999" "ptero-alloc-999"]).2.2 = 1) := by
  refine ⟨by decide, by decide, by decide, by decide, by decide⟩

/-- C8 (amended): for every allocation whose target IP cannot be resolved
(and whose id is not duplicated in the fetched allocation list), the cycle
performs no create, update or delete action touching that allocation id — any
existing managed rule for it is left untouched — and the missing-target
warning is logged for it exactly once per phase that considers it: once when
it has no retained managed rule, twice (update phase and creation phase) when
it has one. -/
theorem claim8_unresolved_target (cfg : UdmConfig) (allocations : List Allocation)
    (rules : List PortForwardRule) (a : Allocation)
    (hmem : a ∈ allocations)
    (huniq : ∀ b ∈ allocations, b.id = a.id → b = a)
    (hbuild : buildPortForwardRequest cfg a = none) :
    (∀ q ∈ (runCycleChanges cfg allocations rules).1.toCreate, q.1.id ≠ a.id)
    ∧ (∀ q ∈ (runCycleChanges cfg allocations rules).1.toUpdate,
        parseAllocationId cfg q.1.name ≠ some a.id)
    ∧ (∀ rr ∈ (runCycleChanges cfg allocations rules).1.toDelete,
        parseAllocationId cfg rr.name ≠ some a.id)
    ∧ List.count a.id (runCycleChanges cfg allocations rules).2.2 =
        (if (mapGet (extractRelevantRules cfg rules).1 a.id).isSome then 2 else 1) := by
  have hvals0 : ∀ p ∈ allocations.foldl (fun m b => mapSet m b.id b) [], p.2.id = p.1 :=
    fun p hp => (desired_mem allocations p hp).2.symm
  have hget0 : mapGet (allocations.foldl (fun m b => mapSet m b.id b) []) a.id = some a :=
    desired_get_unique allocations a hmem huniq
  obtain ⟨p1get, p1count, p1del, p1upd⟩ :=
    phase1_unresolved cfg (extractRelevantRules cfg rules).1
      { toDelete := [], toUpdate := [], warned := [],
        allocations := allocations.foldl (fun m b => mapSet m b.id b) [] } a
      hvals0 (extract_keys_nodup cfg rules)
      (fun p hp => (extract_mem_parse cfg rules p hp).1) hget0 hbuild
  have valsFin : ∀ p ∈ ((extractRelevantRules cfg rules).1.foldl (reconcileExistingStep cfg)
      { toDelete := [], toUpdate := [], warned := [],
        allocations := allocations.foldl (fun m b => mapSet m b.id b) [] }).allocations,
      p.2.id = p.1 :=
    phase1_alloc_vals cfg (extractRelevantRules cfg rules).1 _ hvals0
  have keysFin := phase1_alloc_keys_nodup cfg (extractRelevantRules cfg rules).1
    { toDelete := [], toUpdate := [], warned := [],
      allocations := allocations.foldl (fun m b => mapSet m b.id b) [] }
    (desired_keys_nodup allocations)
  obtain ⟨p2count, p2create⟩ :=
    phase2_unresolved cfg
      ((extractRelevantRules cfg rules).1.foldl (reconcileExistingStep cfg)
        { toDelete := [], toUpdate := [], warned := [],
          allocations := allocations.foldl (fun m b => mapSet m b.id b) [] }).allocations
      ([], []) a valsFin keysFin (mapGet_eq_some_mem p1get) hbuild
  refine ⟨?_, ?_, ?_, ?_⟩
  · intro q hq
    rcases p2create q hq with h | hne
    · cases h
    · exact hne
  · intro q hq
    rcases p1upd q hq with h | hne
    · cases h
    · exact hne
  · intro rr hrr
    rcases p1del rr hrr with h | hne
    · cases h
    · exact hne
  · have htotal : List.count a.id
        (((extractRelevantRules cfg rules).1.foldl (reconcileExistingStep cfg)
          { toDelete := [], toUpdate := [], warned := [],
            allocations := allocations.foldl (fun m b => mapSet m b.id b) [] }).warned
          ++ (((extractRelevantRules cfg rules).1.foldl (reconcileExistingStep cfg)
            { toDelete := [], toUpdate := [], warned := [],
              allocations := allocations.foldl (fun m b => mapSet m b.id b) [] }).allocations.foldl
              (reconcileCreateStep cfg) ([], [])).2) =
        (if (extractRelevantRules cfg rules).1.any (fun p => p.1 = a.id) then 1 else 0) + 1 := by
      rw [List.count_append, p1count, p2count]
      simp
    have hgoal : List.count a.id (runCycleChanges cfg allocations rules).2.2 =
        (if (extractRelevantRules cfg rules).1.any (fun p => p.1 = a.id) then 1 else 0) + 1 :=
      htotal
    rw [hgoal, mapGet_isSome_any]
    by_cases hany : (extractRelevantRules cfg rules).1.any (fun p => p.1 = a.id) = true
    · simp [hany]
    · simp [hany]

/-- C8 witness: the counterexample input run through the amended theorem —
no action touches allocation 999, and the warning count is two because a
managed rule for id 999 is present. -/
theorem claim8_unresolved_target_witness :
    (∀ q ∈ (runCycleChanges cfgNoMap [mkAlloc 999 25565 "203.0.113.5"]
        [mkRule "rule-999" "ptero-alloc-999"]).1.toCreate, q.1.id ≠ 999)
    ∧ (∀ q ∈ (runCycleChanges cfgNoMap [mkAlloc 999 25565 "203.0.113.5"]
        [mkRule "rule-999" "ptero-alloc-999"]).1.toUpdate,
        parseAllocationId cfgNoMap q.1.name ≠ some 999)
    ∧ (∀ rr ∈ (runCycleChanges cfgNoMap [mkAlloc 999 25565 "203.0.113.5"]
        [mkRule "rule-999" "ptero-alloc-999"]).1.toDelete,
        parseAllocationId cfgNoMap rr.name ≠ some 999)
    ∧ List.count 999 (runCycleChanges cfgNoMap [mkAlloc 999 25565 "203.0.113.5"]
        [mkRule "rule-999" "ptero-alloc-999"]).2.2 =
        (if (mapGet (extractRelevantRules cfgNoMap
          [mkRule "rule-999" "ptero-alloc-999"]).1 999).isSome then 2 else 1) :=
  claim8_unresolved_target cfgNoMap [mkAlloc 999 25565 "203.0.113.5"]
    [mkRule "rule-999" "ptero-alloc-999"] (mkAlloc 999 25565 "203.0.113.5")
    (by decide) (by decide) (by decide)

end Ubiquityl
